import Mathlib

/-!
stratus/directions: a verification development

A shallow embedding of `directions.go` and proofs about it.

Go strings are byte sequences; they are modelled as lists of byte values (`Nat`, each below 256
in every string the program can hold).  Runes are modelled as `Nat` code points.
-/

namespace Stratus

/-! ## Go strings, runes and UTF-8 (the parts of `unicode/utf8` the program relies on) -/

/-- A Go string: its bytes, in order. -/
abbrev GoString := List Nat

/-- The constant utf8.RuneError, U+FFFD. -/
def RuneError : Nat := 0xFFFD

/-- The constant utf8.MaxRune, U+10FFFF. -/
def MaxRune : Nat := 0x10FFFF

/-- Whether a byte is a UTF-8 continuation byte (0x80..0xBF). -/
def isCont (b : Nat) : Bool := decide (0x80 ≤ b) && decide (b ≤ 0xBF)

/-- Lower bound that utf8 puts on the second byte after the leading byte `b0`
(the acceptRanges table). -/
def acceptLo (b0 : Nat) : Nat :=
  if b0 = 0xE0 then 0xA0 else if b0 = 0xF0 then 0x90 else 0x80

/-- Upper bound that utf8 puts on the second byte after the leading byte `b0`
(the acceptRanges table). -/
def acceptHi (b0 : Nat) : Nat :=
  if b0 = 0xED then 0x9F else if b0 = 0xF4 then 0x8F else 0xBF

/-- Width that the utf8 `first` table gives for a leading byte: 1 for ASCII, 2 to 4 for the
leading byte of a multi-byte encoding, 0 for a byte that cannot start an encoding. -/
def firstSize (b0 : Nat) : Nat :=
  if b0 < 0x80 then 1
  else if b0 < 0xC2 then 0
  else if b0 < 0xE0 then 2
  else if b0 < 0xF0 then 3
  else if b0 < 0xF5 then 4
  else 0

/-- The function utf8.DecodeRuneInString: the first rune of a string and its width in bytes.
An empty string gives (RuneError, 0); an invalid encoding gives (RuneError, 1). -/
def decodeRune (s : GoString) : Nat × Nat :=
  if s.length < 1 then (RuneError, 0)
  else if s.getD 0 0 < 0x80 then (s.getD 0 0, 1)
  else if firstSize (s.getD 0 0) = 0 then (RuneError, 1)
  else if s.length < firstSize (s.getD 0 0) then (RuneError, 1)
  else if s.getD 1 0 < acceptLo (s.getD 0 0) ∨ acceptHi (s.getD 0 0) < s.getD 1 0 then
    (RuneError, 1)
  else if firstSize (s.getD 0 0) ≤ 2 then (s.getD 0 0 % 32 * 64 + s.getD 1 0 % 64, 2)
  else if isCont (s.getD 2 0) = false then (RuneError, 1)
  else if firstSize (s.getD 0 0) ≤ 3 then
    (s.getD 0 0 % 16 * 4096 + s.getD 1 0 % 64 * 64 + s.getD 2 0 % 64, 3)
  else if isCont (s.getD 3 0) = false then (RuneError, 1)
  else
    (s.getD 0 0 % 8 * 262144 + s.getD 1 0 % 64 * 4096 + s.getD 2 0 % 64 * 64 + s.getD 3 0 % 64, 4)

/-- The function utf8.AppendRune (what bytes.Buffer.WriteRune appends): the UTF-8 encoding of a
rune; surrogates and values above MaxRune are written as RuneError. -/
def encodeRune (r : Nat) : GoString :=
  if r < 0x80 then [r]
  else if r < 0x800 then [0xC0 + r / 64, 0x80 + r % 64]
  else if MaxRune < r ∨ (0xD800 ≤ r ∧ r ≤ 0xDFFF) then [0xEF, 0xBF, 0xBD]
  else if r < 0x10000 then [0xE0 + r / 4096, 0x80 + r / 64 % 64, 0x80 + r % 64]
  else [0xF0 + r / 262144, 0x80 + r / 4096 % 64, 0x80 + r / 64 % 64, 0x80 + r % 64]

/-- The decoder as a function of the leading byte and the three bytes after it (0 standing for
a byte past the end of the string). -/
def decodeAt (b s1 s2 s3 : Nat) : Nat × Nat :=
  if b < 0x80 then (b, 1)
  else if firstSize b = 0 then (RuneError, 1)
  else if s1 < acceptLo b ∨ acceptHi b < s1 then (RuneError, 1)
  else if firstSize b ≤ 2 then (b % 32 * 64 + s1 % 64, 2)
  else if isCont s2 = false then (RuneError, 1)
  else if firstSize b ≤ 3 then (b % 16 * 4096 + s1 % 64 * 64 + s2 % 64, 3)
  else if isCont s3 = false then (RuneError, 1)
  else (b % 8 * 262144 + s1 % 64 * 4096 + s2 % 64 * 64 + s3 % 64, 4)

/-- The predicate utf8.ValidRune: a code point that UTF-8 can encode. -/
def validRune (r : Nat) : Prop := r ≤ MaxRune ∧ ¬ (0xD800 ≤ r ∧ r ≤ 0xDFFF)

/-- Worker of `runes`: `skip` bytes of the current rune are still to be passed over. -/
def runesAux : Nat → GoString → List Nat
  | _, [] => []
  | 0, b :: rest => (decodeRune (b :: rest)).1 :: runesAux ((decodeRune (b :: rest)).2 - 1) rest
  | k + 1, _ :: rest => runesAux k rest

/-- The runes a Go `for _, v := range s` loop visits, in order: each step decodes one rune at
the current byte offset and advances by its width (1 for an invalid byte). -/
def runes (s : GoString) : List Nat := runesAux 0 s

/-- The bytes of a string literal of the source file (Go source text is UTF-8). -/
def lit (s : String) : GoString := s.toList.flatMap (fun c => encodeRune c.toNat)

/-- Worker of `ValidString`: `skip` bytes of the current rune are still to be passed over. -/
def validAux : Nat → GoString → Bool
  | _, [] => true
  | 0, b :: rest =>
    (decide (b < 0x80) || decide ((decodeRune (b :: rest)).2 ≠ 1)) &&
      validAux ((decodeRune (b :: rest)).2 - 1) rest
  | k + 1, _ :: rest => validAux k rest

/-- The function utf8.ValidString: whether the string consists entirely of valid UTF-8
encodings, that is, no decoding step reports an invalid byte. -/
def ValidString (s : GoString) : Bool := validAux 0 s

/-! ## stripHTML (directions.go, lines 131-148) -/

/-- The loop state of stripHTML: the buffer `b` and the flag `tagHere`. -/
structure StripState where
  b : GoString
  tagHere : Bool
  deriving DecidableEq, Repr

/-- One iteration of the loop body of stripHTML on the rune `v`. -/
def stripStep (st : StripState) (v : Nat) : StripState :=
  if v = 0x3C then { st with tagHere := true }
  else if v = 0x3E then { st with tagHere := false }
  else if !st.tagHere then { st with b := st.b ++ encodeRune v }
  else st

/-- The runes that the loop of stripHTML writes to its buffer, given the value of `tagHere`
on entry. -/
def stripRunes : Bool → List Nat → List Nat
  | _, [] => []
  | tagHere, v :: vs =>
    if v = 0x3C then stripRunes true vs
    else if v = 0x3E then stripRunes false vs
    else if tagHere then stripRunes tagHere vs
    else v :: stripRunes tagHere vs

/-- The function stripHTML: strips HTML tags out of the given string. -/
def stripHTML (s : GoString) : GoString :=
  ((runes s).foldl stripStep { b := [], tagHere := false }).b

/-! ## The data model (directions.go, lines 21-86)

The anonymous struct types of the source get the names the specification uses for them. -/

/-- A Go float64, given by its IEEE 754 binary64 bit pattern. -/
structure Float64 where
  bits : Nat := 0
  deriving DecidableEq, Repr

/-- A Go slice as encoding/json can observe it: its elements, and the elements that an earlier,
longer content left in the backing array behind the current length (`spare`, nearest first).
Slots of the backing array beyond `spare` hold zero values.  A nil slice and an empty slice are
both `elems = []`. -/
structure Slice (α : Type) where
  elems : List α := []
  spare : List α := []
  deriving DecidableEq, Repr

/-- A value of type interface{} as encoding/json produces it: nil, bool, float64, string,
[]interface{} or map[string]interface{} (a map is kept as the list of its entries, each key
once). -/
inductive Any where
  | nil
  | bool (b : Bool)
  | float64 (f : Float64)
  | string (s : GoString)
  | slice (l : List Any)
  | map (m : List (GoString × Any))
  deriving Repr

mutual
/-- Decidable equality of interface values. -/
def Any.decEq : (a b : Any) → Decidable (a = b)
  | .nil, .nil => isTrue rfl
  | .bool a, .bool b =>
    if h : a = b then isTrue (by rw [h]) else isFalse (fun e => h (by cases e; rfl))
  | .float64 a, .float64 b =>
    if h : a = b then isTrue (by rw [h]) else isFalse (fun e => h (by cases e; rfl))
  | .string a, .string b =>
    if h : a = b then isTrue (by rw [h]) else isFalse (fun e => h (by cases e; rfl))
  | .slice a, .slice b =>
    match Any.decEqList a b with
    | isTrue h => isTrue (by rw [h])
    | isFalse h => isFalse (fun e => h (by cases e; rfl))
  | .map a, .map b =>
    match Any.decEqMembers a b with
    | isTrue h => isTrue (by rw [h])
    | isFalse h => isFalse (fun e => h (by cases e; rfl))
  | .nil, .bool _ | .nil, .float64 _ | .nil, .string _ | .nil, .slice _ | .nil, .map _
  | .bool _, .nil | .bool _, .float64 _ | .bool _, .string _ | .bool _, .slice _
  | .bool _, .map _ | .float64 _, .nil | .float64 _, .bool _ | .float64 _, .string _
  | .float64 _, .slice _ | .float64 _, .map _ | .string _, .nil | .string _, .bool _
  | .string _, .float64 _ | .string _, .slice _ | .string _, .map _ | .slice _, .nil
  | .slice _, .bool _ | .slice _, .float64 _ | .slice _, .string _ | .slice _, .map _
  | .map _, .nil | .map _, .bool _ | .map _, .float64 _ | .map _, .string _
  | .map _, .slice _ => isFalse (fun e => by cases e)
/-- Decidable equality of lists of interface values. -/
def Any.decEqList : (a b : List Any) → Decidable (a = b)
  | [], [] => isTrue rfl
  | [], _ :: _ => isFalse (fun e => by cases e)
  | _ :: _, [] => isFalse (fun e => by cases e)
  | x :: xs, y :: ys =>
    match Any.decEq x y, Any.decEqList xs ys with
    | isTrue h1, isTrue h2 => isTrue (by rw [h1, h2])
    | isFalse h1, _ => isFalse (fun e => h1 (by cases e; rfl))
    | _, isFalse h2 => isFalse (fun e => h2 (by cases e; rfl))
/-- Decidable equality of lists of map entries. -/
def Any.decEqMembers : (a b : List (GoString × Any)) → Decidable (a = b)
  | [], [] => isTrue rfl
  | [], _ :: _ => isFalse (fun e => by cases e)
  | _ :: _, [] => isFalse (fun e => by cases e)
  | (k, x) :: xs, (l, y) :: ys =>
    if hk : k = l then
      match Any.decEq x y, Any.decEqMembers xs ys with
      | isTrue h1, isTrue h2 => isTrue (by rw [hk, h1, h2])
      | isFalse h1, _ => isFalse (fun e => h1 (by cases e; rfl))
      | _, isFalse h2 => isFalse (fun e => h2 (by cases e; rfl))
    else isFalse (fun e => hk (by cases e; rfl))
end

instance : DecidableEq Any := Any.decEq

/-- Location: the struct with the fields `lat` and `lng`. -/
structure Location where
  Lat : Float64 := {}
  Lng : Float64 := {}
  deriving DecidableEq, Repr

/-- TextValue: the struct with the fields `text` and `value` (distance, duration). -/
structure TextValue where
  Text : GoString := []
  Value : Int := 0
  deriving DecidableEq, Repr

/-- The struct with the single field `points` (polyline, overview_polyline). -/
structure Polyline where
  Points : GoString := []
  deriving DecidableEq, Repr

/-- The struct of the field `bounds`. -/
structure Bounds where
  Northeast : Location := {}
  Southwest : Location := {}
  deriving DecidableEq, Repr

/-- Step: an element of `steps` (lines 53-75). -/
structure Step where
  Distance : TextValue := {}
  Duration : TextValue := {}
  EndLocation : Location := {}
  HtmlInstructions : GoString := []
  Polyline : Polyline := {}
  StartLocation : Location := {}
  TravelMode : GoString := []
  deriving DecidableEq, Repr

/-- Leg: an element of `legs` (lines 34-77). -/
structure Leg where
  Distance : TextValue := {}
  Duration : TextValue := {}
  EndAddress : GoString := []
  EndLocation : Location := {}
  StartAddress : GoString := []
  StartLocation : Location := {}
  Steps : Slice Step := {}
  ViaWaypoint : Slice Any := {}
  deriving DecidableEq, Repr

/-- Route: an element of `routes` (lines 22-84). -/
structure Route where
  Bounds : Bounds := {}
  Copyrights : GoString := []
  Legs : Slice Leg := {}
  OverviewPolyline : Polyline := {}
  Summary : GoString := []
  Warnings : Slice Any := {}
  WaypointOrder : Slice Any := {}
  deriving DecidableEq, Repr

/-- The type Directions (lines 21-86). -/
structure Directions where
  Routes : Slice Route := {}
  Status : GoString := []
  deriving DecidableEq, Repr

/-! ## The output loops of main (directions.go, lines 156-165) -/

/-- The verb %d of fmt.Printf on a non-negative int: its decimal digits. -/
def itoa (n : Nat) : GoString := lit (toString n)

/-- The loop `for k, s := range v.Steps`, from index `k` on, appending to standard output. -/
def printSteps (out : GoString) (k : Nat) : List Step → GoString
  | [] => out
  | s :: rest =>
    printSteps
      (out ++ (itoa (k + 1) ++ lit " - " ++ stripHTML s.HtmlInstructions ++ lit " (" ++
        s.Duration.Text ++ lit ")\n"))
      (k + 1) rest

/-- The loop `for _, v := range r.Legs`, appending to standard output. -/
def printLegs (out : GoString) : List Leg → GoString
  | [] => out
  | v :: rest => printLegs (printSteps (out ++ (v.Distance.Text ++ lit "\n")) 0 v.Steps.elems) rest

/-- The loop `for _, r := range directions.Routes`, appending to standard output. -/
def printRoutes (out : GoString) : List Route → GoString
  | [] => out
  | r :: rest => printRoutes (printLegs out r.Legs.elems ++ lit "\n") rest

/-- What main writes to standard output once getDirections has returned the non-nil
`directions` (lines 156-165). -/
def mainOutput (origin destination : GoString) (directions : Directions) : GoString :=
  printRoutes (origin ++ lit " -> " ++ destination ++ lit "\n\n") directions.Routes.elems

/-- The line the specification gives for the step with 1-based index `k`. -/
def expectedStepLine (k : Nat) (s : Step) : GoString :=
  itoa k ++ lit " - " ++ stripHTML s.HtmlInstructions ++ lit " (" ++ s.Duration.Text ++ lit ")\n"

/-- The text the specification gives for one leg: its distance text, then its step lines,
numbered from 1. -/
def expectedLeg (v : Leg) : GoString :=
  v.Distance.Text ++ lit "\n" ++
    (v.Steps.elems.enumFrom 1).flatMap (fun ks => expectedStepLine ks.1 ks.2)

/-- The text the specification gives for the whole output: the header, then for each route its
legs and one blank line. -/
def expectedOutput (origin destination : GoString) (d : Directions) : GoString :=
  origin ++ lit " -> " ++ destination ++ lit "\n\n" ++
    d.Routes.elems.flatMap (fun r => r.Legs.elems.flatMap expectedLeg ++ lit "\n")

/-- The Directions value of the end-to-end scenario of the specification: one route, one leg of
distance text "5.0 mi", two steps. -/
def scenario : Directions :=
  { Routes := { elems := [{ Legs := { elems := [{
      Distance := { Text := lit "5.0 mi" },
      Steps := { elems := [
        { HtmlInstructions := lit "Head <b>north</b> on Main St",
          Duration := { Text := lit "2 mins" } },
        { HtmlInstructions := lit "Turn <b>left</b>",
          Duration := { Text := lit "1 min" } }] } }] } }] },
    Status := lit "OK" }

/-! ## Errors and readers -/

/-- The error values the program can meet. -/
inductive Error where
  /-- The error io.EOF. -/
  | EOF
  /-- The error io.ErrUnexpectedEOF. -/
  | ErrUnexpectedEOF
  /-- A json.SyntaxError. -/
  | SyntaxError
  /-- A json.UnmarshalTypeError; `value` is its field Value, the description of the JSON value
  that does not fit: "array", "object", "string", "number", "bool", or "number " followed by the
  literal for a number that does not convert. -/
  | UnmarshalTypeError (value : GoString)
  /-- Any other error: a failure of the reader, of url.Parse or of http.Get. -/
  | Other (msg : GoString)
  deriving DecidableEq, Repr

/-- An io.Reader, by what reading it to the end yields: the bytes `data`, and then either
io.EOF (`err = none`) or the I/O failure `err`. -/
structure Reader where
  data : GoString
  err : Option Error := none
  deriving DecidableEq, Repr

/-! ## encoding/json: JSON values and the scanner (scanner.go) -/

/-- A JSON value as the decoder reads it off the text: a number keeps its literal, a string
and an object key are unquoted. -/
inductive JSON where
  | null
  | bool (b : Bool)
  | number (lit : GoString)
  | string (s : GoString)
  | array (elems : List JSON)
  | object (members : List (GoString × JSON))
  deriving Repr

mutual
/-- Decidable equality of JSON values. -/
def JSON.decEq : (a b : JSON) → Decidable (a = b)
  | .null, .null => isTrue rfl
  | .bool a, .bool b =>
    if h : a = b then isTrue (by rw [h]) else isFalse (fun e => h (by cases e; rfl))
  | .number a, .number b =>
    if h : a = b then isTrue (by rw [h]) else isFalse (fun e => h (by cases e; rfl))
  | .string a, .string b =>
    if h : a = b then isTrue (by rw [h]) else isFalse (fun e => h (by cases e; rfl))
  | .array a, .array b =>
    match JSON.decEqList a b with
    | isTrue h => isTrue (by rw [h])
    | isFalse h => isFalse (fun e => h (by cases e; rfl))
  | .object a, .object b =>
    match JSON.decEqMembers a b with
    | isTrue h => isTrue (by rw [h])
    | isFalse h => isFalse (fun e => h (by cases e; rfl))
  | .null, .bool _ | .null, .number _ | .null, .string _ | .null, .array _ | .null, .object _
  | .bool _, .null | .bool _, .number _ | .bool _, .string _ | .bool _, .array _
  | .bool _, .object _ | .number _, .null | .number _, .bool _ | .number _, .string _
  | .number _, .array _ | .number _, .object _ | .string _, .null | .string _, .bool _
  | .string _, .number _ | .string _, .array _ | .string _, .object _ | .array _, .null
  | .array _, .bool _ | .array _, .number _ | .array _, .string _ | .array _, .object _
  | .object _, .null | .object _, .bool _ | .object _, .number _ | .object _, .string _
  | .object _, .array _ => isFalse (fun e => by cases e)
/-- Decidable equality of lists of JSON values. -/
def JSON.decEqList : (a b : List JSON) → Decidable (a = b)
  | [], [] => isTrue rfl
  | [], _ :: _ => isFalse (fun e => by cases e)
  | _ :: _, [] => isFalse (fun e => by cases e)
  | x :: xs, y :: ys =>
    match JSON.decEq x y, JSON.decEqList xs ys with
    | isTrue h1, isTrue h2 => isTrue (by rw [h1, h2])
    | isFalse h1, _ => isFalse (fun e => h1 (by cases e; rfl))
    | _, isFalse h2 => isFalse (fun e => h2 (by cases e; rfl))
/-- Decidable equality of lists of object members. -/
def JSON.decEqMembers : (a b : List (GoString × JSON)) → Decidable (a = b)
  | [], [] => isTrue rfl
  | [], _ :: _ => isFalse (fun e => by cases e)
  | _ :: _, [] => isFalse (fun e => by cases e)
  | (k, x) :: xs, (l, y) :: ys =>
    if hk : k = l then
      match JSON.decEq x y, JSON.decEqMembers xs ys with
      | isTrue h1, isTrue h2 => isTrue (by rw [hk, h1, h2])
      | isFalse h1, _ => isFalse (fun e => h1 (by cases e; rfl))
      | _, isFalse h2 => isFalse (fun e => h2 (by cases e; rfl))
    else isFalse (fun e => hk (by cases e; rfl))
end

instance : DecidableEq JSON := JSON.decEq

/-- The function isSpace of the scanner: space, tab, carriage return, line feed. -/
def isSpace (c : Nat) : Bool := c == 0x20 || c == 0x09 || c == 0x0D || c == 0x0A

/-- Whether a byte is a decimal digit. -/
def isDigit (c : Nat) : Bool := decide (0x30 ≤ c) && decide (c ≤ 0x39)

/-- The value of a hexadecimal digit, if the byte is one. -/
def hexVal (c : Nat) : Option Nat :=
  if 0x30 ≤ c ∧ c ≤ 0x39 then some (c - 0x30)
  else if 0x61 ≤ c ∧ c ≤ 0x66 then some (c - 0x61 + 10)
  else if 0x41 ≤ c ∧ c ≤ 0x46 then some (c - 0x41 + 10)
  else none

/-- The function getu4 of decode.go: the code unit of a leading `\uXXXX`, if there is one. -/
def getu4 : GoString → Option Nat
  | 0x5C :: 0x75 :: a :: b :: c :: d :: _ =>
    match hexVal a, hexVal b, hexVal c, hexVal d with
    | some x, some y, some z, some w => some (x * 4096 + y * 256 + z * 16 + w)
    | _, _, _, _ => none
  | _ => none

/-- The byte a one-letter escape stands for (the escapes other than `\u`). -/
def unescapeByte (e : Nat) : Option Nat :=
  if e = 0x22 ∨ e = 0x5C ∨ e = 0x2F then some e
  else if e = 0x62 then some 0x08
  else if e = 0x66 then some 0x0C
  else if e = 0x6E then some 0x0A
  else if e = 0x72 then some 0x0D
  else if e = 0x74 then some 0x09
  else none

/-- Worker of `unquote`: `skip` bytes of the current escape or rune are still to be passed
over. -/
def unquoteAux : Nat → GoString → Option GoString
  | _, [] => some []
  | k + 1, _ :: rest => unquoteAux k rest
  | 0, c :: rest =>
    if c = 0x5C then
      match rest with
      | [] => none
      | e :: _ =>
        if e = 0x75 then
          match getu4 (c :: rest) with
          | none => none
          | some rr =>
            if 0xD800 ≤ rr ∧ rr < 0xE000 then
              match getu4 (rest.drop 5) with
              | some rr1 =>
                if rr < 0xDC00 ∧ 0xDC00 ≤ rr1 ∧ rr1 < 0xE000 then
                  (unquoteAux 11 rest).map
                    (encodeRune ((rr - 0xD800) * 1024 + (rr1 - 0xDC00) + 0x10000) ++ ·)
                else (unquoteAux 5 rest).map (encodeRune RuneError ++ ·)
              | none => (unquoteAux 5 rest).map (encodeRune RuneError ++ ·)
            else (unquoteAux 5 rest).map (encodeRune rr ++ ·)
        else
          match unescapeByte e with
          | some b => (unquoteAux 1 rest).map (b :: ·)
          | none => none
    else if c = 0x22 ∨ c < 0x20 then none
    else if c < 0x80 then (unquoteAux 0 rest).map (c :: ·)
    else
      (unquoteAux ((decodeRune (c :: rest)).2 - 1) rest).map
        (encodeRune (decodeRune (c :: rest)).1 ++ ·)

/-- The function unquote of decode.go on the text between the quotes of a string literal:
escapes are replaced, a surrogate pair becomes one rune, an unpaired surrogate and every invalid
UTF-8 byte become U+FFFD. -/
def unquote (s : GoString) : Option GoString := unquoteAux 0 s

/-- The step functions of the scanner (the values of its field `step`). -/
inductive ScanStep where
  | beginValue | beginValueOrEmpty | beginStringOrEmpty | beginString | endValue
  | inString | inStringEsc | inStringEscU | inStringEscU1 | inStringEscU12 | inStringEscU123
  | neg | st1 | st0 | dot | dot0 | e | eSign | e0
  | t | tr | tru | f | fa | fal | fals | n | nu | nul
  deriving DecidableEq, Repr

/-- An entry of the scanner's parseState stack together with the part of the enclosing array
or object read so far.  `objectKey` is parseObjectKey (its key is set once the key string has
been read), `objectValue` is parseObjectValue (its key is pending until the value has been
read), `array` is parseArrayValue. -/
inductive Frame where
  | objectKey (members : List (GoString × JSON)) (key : Option GoString)
  | objectValue (members : List (GoString × JSON)) (key : Option GoString)
  | array (elems : List JSON)
  deriving DecidableEq, Repr

/-- The constant maxNestingDepth of the scanner. -/
def maxNestingDepth : Nat := 10000

/-- The scanner: its step function, its parseState stack (innermost first), the raw bytes of
the string or number being read, and the top-level value once it has been read. -/
structure Scanner where
  step : ScanStep := .beginValue
  parseState : List Frame := []
  tok : GoString := []
  top : Option JSON := none
  deriving DecidableEq, Repr

/-- What feeding one byte to the scanner yields: go on, the value has ended (scanEnd; `inside`
tells whether the byte fed is the last byte of the value), or a syntax error. -/
inductive ScanResult where
  | continue (sc : Scanner)
  | endAt (v : JSON) (inside : Bool)
  | error
  deriving DecidableEq, Repr

/-- A value has just been read: it goes to the enclosing array or object, or becomes the
top-level value; the scanner moves to stateEndValue. -/
def Scanner.valueRead (sc : Scanner) (v : JSON) : Scanner :=
  match sc.parseState with
  | [] => { sc with step := .endValue, tok := [], top := some v }
  | .array es :: fs =>
    { sc with step := .endValue, tok := [], parseState := .array (es ++ [v]) :: fs }
  | .objectKey ms key :: fs =>
    match v with
    | .string k =>
      { sc with step := .endValue, tok := [], parseState := .objectKey ms (some k) :: fs }
    | _ => { sc with step := .endValue, tok := [], parseState := .objectKey ms key :: fs }
  | .objectValue ms (some k) :: fs =>
    { sc with step := .endValue, tok := [],
              parseState := .objectValue (ms ++ [(k, v)]) none :: fs }
  | .objectValue ms none :: fs =>
    { sc with step := .endValue, tok := [], parseState := .objectValue ms none :: fs }

/-- The function pushParseState: entering an array or object; more than maxNestingDepth
open ones are an error. -/
def Scanner.push (sc : Scanner) (f : Frame) (next : ScanStep) : ScanResult :=
  if (f :: sc.parseState).length ≤ maxNestingDepth then
    .continue { sc with step := next, parseState := f :: sc.parseState }
  else .error

/-- An array or object has been closed (popParseState, scanEndArray or scanEndObject): at the
top level the value ends here, otherwise it has been read as a value of the enclosing one. -/
def Scanner.close (sc : Scanner) (fs : List Frame) (v : JSON) : ScanResult :=
  match fs with
  | [] => .endAt v true
  | _ :: _ => .continue ({ sc with parseState := fs }.valueRead v)

/-- The step function stateEndValue. -/
def stateEndValue (sc : Scanner) (c : Nat) : ScanResult :=
  match sc.parseState with
  | [] =>
    match sc.top with
    | some v => .endAt v false
    | none => .error
  | f :: fs =>
    if isSpace c then .continue { sc with step := .endValue }
    else
      match f with
      | .objectKey ms key =>
        if c = 0x3A then
          .continue { sc with step := .beginValue, parseState := .objectValue ms key :: fs }
        else .error
      | .objectValue ms _ =>
        if c = 0x2C then
          .continue { sc with step := .beginString, parseState := .objectKey ms none :: fs }
        else if c = 0x7D then sc.close fs (.object ms)
        else .error
      | .array es =>
        if c = 0x2C then .continue { sc with step := .beginValue }
        else if c = 0x5D then sc.close fs (.array es)
        else .error

/-- The step function stateBeginValue. -/
def stateBeginValue (sc : Scanner) (c : Nat) : ScanResult :=
  if isSpace c then .continue sc
  else if c = 0x7B then sc.push (.objectKey [] none) .beginStringOrEmpty
  else if c = 0x5B then sc.push (.array []) .beginValueOrEmpty
  else if c = 0x22 then .continue { sc with step := .inString, tok := [] }
  else if c = 0x2D then .continue { sc with step := .neg, tok := [c] }
  else if c = 0x30 then .continue { sc with step := .st0, tok := [c] }
  else if c = 0x74 then .continue { sc with step := .t }
  else if c = 0x66 then .continue { sc with step := .f }
  else if c = 0x6E then .continue { sc with step := .n }
  else if 0x31 ≤ c ∧ c ≤ 0x39 then .continue { sc with step := .st1, tok := [c] }
  else .error

/-- The step function stateBeginString. -/
def stateBeginString (sc : Scanner) (c : Nat) : ScanResult :=
  if isSpace c then .continue sc
  else if c = 0x22 then .continue { sc with step := .inString, tok := [] }
  else .error

/-- The end of a number literal: the number is read and the byte goes to stateEndValue. -/
def numberEnd (sc : Scanner) (c : Nat) : ScanResult :=
  stateEndValue (sc.valueRead (.number sc.tok)) c

/-- One more letter of a literal name: `c` must be `want`. -/
def letter (sc : Scanner) (c want : Nat) (next : ScanStep) : ScanResult :=
  if c = want then .continue { sc with step := next } else .error

/-- The last letter of a literal name: `c` must be `want`, and the value `v` is read. -/
def lastLetter (sc : Scanner) (c want : Nat) (v : JSON) : ScanResult :=
  if c = want then .continue (sc.valueRead v) else .error

/-- A hexadecimal digit of a `\u` escape. -/
def hexDigit (sc : Scanner) (c : Nat) (next : ScanStep) : ScanResult :=
  if (hexVal c).isSome then .continue { sc with step := next, tok := sc.tok ++ [c] } else .error

/-- Feeding the byte `c` to the scanner: `s.step(s, c)`. -/
def scanStep (sc : Scanner) (c : Nat) : ScanResult :=
  match sc.step with
  | .beginValue => stateBeginValue sc c
  | .beginValueOrEmpty =>
    if isSpace c then .continue sc
    else if c = 0x5D then stateEndValue sc c
    else stateBeginValue sc c
  | .beginStringOrEmpty =>
    if isSpace c then .continue sc
    else if c = 0x7D then
      match sc.parseState with
      | .objectKey ms key :: fs =>
        stateEndValue { sc with parseState := .objectValue ms key :: fs } c
      | _ => stateEndValue sc c
    else stateBeginString sc c
  | .beginString => stateBeginString sc c
  | .endValue => stateEndValue sc c
  | .inString =>
    if c = 0x22 then
      match unquote sc.tok with
      | some s => .continue (sc.valueRead (.string s))
      | none => .error
    else if c = 0x5C then .continue { sc with step := .inStringEsc, tok := sc.tok ++ [c] }
    else if c < 0x20 then .error
    else .continue { sc with tok := sc.tok ++ [c] }
  | .inStringEsc =>
    if c = 0x75 then .continue { sc with step := .inStringEscU, tok := sc.tok ++ [c] }
    else if (unescapeByte c).isSome then
      .continue { sc with step := .inString, tok := sc.tok ++ [c] }
    else .error
  | .inStringEscU => hexDigit sc c .inStringEscU1
  | .inStringEscU1 => hexDigit sc c .inStringEscU12
  | .inStringEscU12 => hexDigit sc c .inStringEscU123
  | .inStringEscU123 => hexDigit sc c .inString
  | .neg =>
    if c = 0x30 then .continue { sc with step := .st0, tok := sc.tok ++ [c] }
    else if 0x31 ≤ c ∧ c ≤ 0x39 then .continue { sc with step := .st1, tok := sc.tok ++ [c] }
    else .error
  | .st1 =>
    if isDigit c then .continue { sc with tok := sc.tok ++ [c] }
    else if c = 0x2E then .continue { sc with step := .dot, tok := sc.tok ++ [c] }
    else if c = 0x65 ∨ c = 0x45 then .continue { sc with step := .e, tok := sc.tok ++ [c] }
    else numberEnd sc c
  | .st0 =>
    if c = 0x2E then .continue { sc with step := .dot, tok := sc.tok ++ [c] }
    else if c = 0x65 ∨ c = 0x45 then .continue { sc with step := .e, tok := sc.tok ++ [c] }
    else numberEnd sc c
  | .dot =>
    if isDigit c then .continue { sc with step := .dot0, tok := sc.tok ++ [c] } else .error
  | .dot0 =>
    if isDigit c then .continue { sc with tok := sc.tok ++ [c] }
    else if c = 0x65 ∨ c = 0x45 then .continue { sc with step := .e, tok := sc.tok ++ [c] }
    else numberEnd sc c
  | .e =>
    if c = 0x2B ∨ c = 0x2D then .continue { sc with step := .eSign, tok := sc.tok ++ [c] }
    else if isDigit c then .continue { sc with step := .e0, tok := sc.tok ++ [c] }
    else .error
  | .eSign =>
    if isDigit c then .continue { sc with step := .e0, tok := sc.tok ++ [c] } else .error
  | .e0 =>
    if isDigit c then .continue { sc with tok := sc.tok ++ [c] } else numberEnd sc c
  | .t => letter sc c 0x72 .tr
  | .tr => letter sc c 0x75 .tru
  | .tru => lastLetter sc c 0x65 (.bool true)
  | .f => letter sc c 0x61 .fa
  | .fa => letter sc c 0x6C .fal
  | .fal => letter sc c 0x73 .fals
  | .fals => lastLetter sc c 0x65 (.bool false)
  | .n => letter sc c 0x75 .nu
  | .nu => letter sc c 0x6C .nul
  | .nul => lastLetter sc c 0x6C .null

/-- What scanning the bytes at hand yields: the first value, a syntax error, or a scanner that
needs more bytes. -/
inductive ScanOutcome where
  | value (v : JSON)
  | error
  | more (sc : Scanner)
  deriving DecidableEq, Repr

/-- The inner loop of Decoder.readValue: the bytes are fed to the scanner until it reports the
end of the first value or an error; what follows the value is not looked at. -/
def scanBytes : Scanner → GoString → ScanOutcome
  | sc, [] => .more sc
  | sc, c :: rest =>
    match scanStep sc c with
    | .continue sc' => scanBytes sc' rest
    | .endAt v _ => .value v
    | .error => .error

/-- The method Decoder.readValue on a fresh decoder: the first JSON value of the stream.  When
the stream ends inside the value the result is the reader's failure, or, at io.EOF, the value if
a space would end it, io.ErrUnexpectedEOF if a non-space byte was read, io.EOF otherwise. -/
def readValue (r : Reader) : Except Error JSON :=
  match scanBytes {} r.data with
  | .value v => .ok v
  | .error => .error .SyntaxError
  | .more sc =>
    match r.err with
    | some e => .error e
    | none =>
      match scanStep sc 0x20 with
      | .endAt v _ => .ok v
      | _ => if r.data.any (fun c => !isSpace c) then .error .ErrUnexpectedEOF else .error .EOF

deriving instance DecidableEq for Except

/-! ## strconv: the conversions of number literals

Both functions are modelled on JSON number literals, the only arguments the decoder passes. -/

/-- The value of a sequence of decimal digits. -/
def digitsValue (ds : GoString) : Nat := ds.foldl (fun a c => a * 10 + (c - 0x30)) 0

/-- The function strconv.ParseInt(s, 10, 64): the int64 a literal denotes; none when the
literal is not an optional sign followed by digits only, or is out of the int64 range. -/
def ParseInt (s : GoString) : Option Int :=
  let neg := s.head? = some 0x2D
  let ds := if neg ∨ s.head? = some 0x2B then s.tail else s
  if ds = [] ∨ ds.all isDigit = false then none
  else if neg then
    if digitsValue ds ≤ 2 ^ 63 then some (- (digitsValue ds : Int)) else none
  else
    if digitsValue ds < 2 ^ 63 then some (digitsValue ds : Int) else none

/-- Worker of `bitLen`. -/
def bitLenAux : Nat → Nat → Nat
  | 0, _ => 0
  | fuel + 1, n => if n = 0 then 0 else bitLenAux fuel (n / 2) + 1

/-- The number of binary digits of `n`. -/
def bitLen (n : Nat) : Nat := bitLenAux n n

/-- The float64 nearest to `± num / den` (`num` positive), ties to even; none when it is out of
range, that is, when rounding would give an infinity. -/
def roundFloat64 (neg : Bool) (num den : Nat) : Option Float64 :=
  let sign := if neg then 2 ^ 63 else 0
  let k0 : Int := (bitLen num : Int) - (bitLen den : Int)
  let k : Int :=
    if (if 0 ≤ k0 then decide (den * 2 ^ k0.toNat ≤ num) else decide (den ≤ num * 2 ^ (-k0).toNat))
    then k0 else k0 - 1
  let p : Int := max (k - 52) (-1074)
  let n := if 0 ≤ p then num else num * 2 ^ (-p).toNat
  let d := if 0 ≤ p then den * 2 ^ p.toNat else den
  let q0 := n / d
  let r := n % d
  let q1 := if d < 2 * r ∨ (2 * r = d ∧ q0 % 2 = 1) then q0 + 1 else q0
  let q := if q1 = 2 ^ 53 then 2 ^ 52 else q1
  let p' : Int := if q1 = 2 ^ 53 then p + 1 else p
  if q < 2 ^ 52 then some ⟨sign + q⟩
  else if 2047 ≤ p' + 1075 then none
  else some ⟨sign + (p' + 1075).toNat * 2 ^ 52 + (q - 2 ^ 52)⟩

/-- The function strconv.ParseFloat(s, 64) on a JSON number literal: the nearest float64, or
none (a range error) when the literal is too large in magnitude. -/
def ParseFloat (s : GoString) : Option Float64 :=
  let neg := s.head? = some 0x2D
  let s1 := if neg then s.tail else s
  let intDigits := s1.takeWhile isDigit
  let s2 := s1.dropWhile isDigit
  let fracDigits := if s2.head? = some 0x2E then s2.tail.takeWhile isDigit else []
  let s3 := if s2.head? = some 0x2E then s2.tail.dropWhile isDigit else s2
  let exp : Int :=
    match s3 with
    | [] => 0
    | _ :: 0x2D :: ds => - (digitsValue ds : Int)
    | _ :: 0x2B :: ds => (digitsValue ds : Int)
    | _ :: ds => (digitsValue ds : Int)
  let mant := digitsValue (intDigits ++ fracDigits)
  let e10 : Int := exp - fracDigits.length
  if mant = 0 then some ⟨if neg then 2 ^ 63 else 0⟩
  else if 0 ≤ e10 then roundFloat64 neg (mant * 10 ^ e10.toNat) 1
  else roundFloat64 neg mant (10 ^ (-e10).toNat)

/-! ## encoding/json: storing JSON values into Go values (decode.go) -/

/-- The function foldRune of encoding/json on the runes that matter for matching the field
names of this program (ASCII letters and underscore): a lower-case ASCII letter, the long s
(U+017F) and the Kelvin sign (U+212A) fold to the upper-case ASCII letter; any other rune is
left in place (its fold is never an ASCII character). -/
def foldRune (r : Nat) : Nat :=
  if 0x61 ≤ r ∧ r ≤ 0x7A then r - 0x20
  else if r = 0x17F then 0x53
  else if r = 0x212A then 0x4B
  else r

/-- The function foldName of encoding/json: the name with every rune folded. -/
def foldName (s : GoString) : GoString := (runes s).flatMap (fun r => encodeRune (foldRune r))

/-- A struct field as the decoder sees it: its JSON name (the `json:"..."` tag) and the store
of a JSON value into that field of a struct value. -/
structure Field (T : Type) where
  name : GoString
  store : T → JSON → Except Error T

/-- The field a member name selects: the field of exactly that name, else the first field with
the same folded name. -/
def findField {T : Type} (fields : List (Field T)) (key : GoString) : Option (Field T) :=
  match fields.find? (fun f => f.name == key) with
  | some f => some f
  | none => fields.find? (fun f => foldName f.name == foldName key)

/-- The member loop of the method object of decode.go on a struct: every member whose name
selects a field is stored into it, in the order of the text; other members are skipped. -/
def storeMembers {T : Type} (fields : List (Field T)) : T → List (GoString × JSON) → Except Error T
  | cur, [] => .ok cur
  | cur, (key, v) :: ms =>
    match findField fields key with
    | some f =>
      match f.store cur v with
      | .ok cur' => storeMembers fields cur' ms
      | .error e => .error e
    | none => storeMembers fields cur ms

/-- The kind of a JSON value, as the field Value of json.UnmarshalTypeError names it. -/
def JSON.kind : JSON → GoString
  | .null => lit "null"
  | .bool _ => lit "bool"
  | .number _ => lit "number"
  | .string _ => lit "string"
  | .array _ => lit "array"
  | .object _ => lit "object"

/-- Storing a JSON value into a struct: an object is stored member by member, null leaves the
struct as it is, anything else is a type error. -/
def storeStruct {T : Type} (fields : List (Field T)) (cur : T) (j : JSON) : Except Error T :=
  match j with
  | .object ms => storeMembers fields cur ms
  | .null => .ok cur
  | _ => .error (.UnmarshalTypeError j.kind)

/-- Storing a JSON value into a string: a string is stored, null leaves the old value. -/
def storeString (cur : GoString) (j : JSON) : Except Error GoString :=
  match j with
  | .string s => .ok s
  | .null => .ok cur
  | _ => .error (.UnmarshalTypeError j.kind)

/-- Storing a JSON value into an int64: a number that ParseInt accepts is stored, null leaves
the old value. -/
def storeInt64 (cur : Int) (j : JSON) : Except Error Int :=
  match j with
  | .number l =>
    match ParseInt l with
    | some n => .ok n
    | none => .error (.UnmarshalTypeError (lit "number " ++ l))
  | .null => .ok cur
  | _ => .error (.UnmarshalTypeError j.kind)

/-- Storing a JSON value into a float64: a number that ParseFloat accepts is stored, null
leaves the old value. -/
def storeFloat64 (cur : Float64) (j : JSON) : Except Error Float64 :=
  match j with
  | .number l =>
    match ParseFloat l with
    | some f => .ok f
    | none => .error (.UnmarshalTypeError (lit "number " ++ l))
  | .null => .ok cur
  | _ => .error (.UnmarshalTypeError j.kind)

/-- The assignment `m[key] = v` on a map kept as its list of entries. -/
def mapSet (m : List (GoString × Any)) (key : GoString) (v : Any) : List (GoString × Any) :=
  match m with
  | [] => [(key, v)]
  | (k, x) :: rest => if k = key then (k, v) :: rest else (k, x) :: mapSet rest key v

mutual
/-- The method valueInterface of decode.go: the interface value a JSON value decodes to; a
number out of the float64 range is an error. -/
def toAny : JSON → Except Error Any
  | .null => .ok .nil
  | .bool b => .ok (.bool b)
  | .number l =>
    match ParseFloat l with
    | some f => .ok (.float64 f)
    | none => .error (.UnmarshalTypeError (lit "number " ++ l))
  | .string s => .ok (.string s)
  | .array es =>
    match toAnyList es with
    | .ok l => .ok (.slice l)
    | .error e => .error e
  | .object ms =>
    match toAnyMembers ms with
    | .ok m => .ok (.map (m.foldl (fun acc kv => mapSet acc kv.1 kv.2) []))
    | .error e => .error e
/-- The elements of an array, decoded in order. -/
def toAnyList : List JSON → Except Error (List Any)
  | [] => .ok []
  | j :: js =>
    match toAny j with
    | .ok a =>
      match toAnyList js with
      | .ok as => .ok (a :: as)
      | .error e => .error e
    | .error e => .error e
/-- The members of an object, decoded in order. -/
def toAnyMembers : List (GoString × JSON) → Except Error (List (GoString × Any))
  | [] => .ok []
  | (k, j) :: js =>
    match toAny j with
    | .ok a =>
      match toAnyMembers js with
      | .ok as => .ok ((k, a) :: as)
      | .error e => .error e
    | .error e => .error e
end

/-- Storing a JSON value into an interface{}: whatever the old value, the new one replaces
it. -/
def storeAny (_cur : Any) (j : JSON) : Except Error Any := toAny j

/-- The element loop of the method array of decode.go on a slice: element `i` of the text is
stored into slot `i` of the backing array (`backing`, a zero value beyond it). -/
def storeElems {α : Type} (store : α → JSON → Except Error α) (zero : α) :
    List α → List JSON → Except Error (List α)
  | _, [] => .ok []
  | backing, j :: js =>
    match store (backing.headD zero) j with
    | .ok x =>
      match storeElems store zero backing.tail js with
      | .ok xs => .ok (x :: xs)
      | .error e => .error e
    | .error e => .error e

/-- Storing a JSON value into a slice: the elements of an array are stored into the slots of
the backing array, which keeps what lies behind them; an empty array gives a fresh empty slice;
null gives the nil slice; anything else is a type error. -/
def storeSlice {α : Type} (store : α → JSON → Except Error α) (zero : α) (cur : Slice α)
    (j : JSON) : Except Error (Slice α) :=
  match j with
  | .array [] => .ok {}
  | .array es =>
    match storeElems store zero (cur.elems ++ cur.spare) es with
    | .ok xs => .ok { elems := xs, spare := (cur.elems ++ cur.spare).drop es.length }
    | .error e => .error e
  | .null => .ok {}
  | _ => .error (.UnmarshalTypeError j.kind)

/-- The fields of Location (`lat`, `lng`). -/
def locationFields : List (Field Location) :=
  [ ⟨lit "lat", fun c j => (storeFloat64 c.Lat j).map (fun x => { c with Lat := x })⟩,
    ⟨lit "lng", fun c j => (storeFloat64 c.Lng j).map (fun x => { c with Lng := x })⟩ ]

/-- The fields of TextValue (`text`, `value`). -/
def textValueFields : List (Field TextValue) :=
  [ ⟨lit "text", fun c j => (storeString c.Text j).map (fun x => { c with Text := x })⟩,
    ⟨lit "value", fun c j => (storeInt64 c.Value j).map (fun x => { c with Value := x })⟩ ]

/-- The field of Polyline (`points`). -/
def polylineFields : List (Field Polyline) :=
  [ ⟨lit "points", fun c j => (storeString c.Points j).map (fun x => { c with Points := x })⟩ ]

/-- The fields of Bounds (`northeast`, `southwest`). -/
def boundsFields : List (Field Bounds) :=
  [ ⟨lit "northeast", fun c j =>
      (storeStruct locationFields c.Northeast j).map (fun x => { c with Northeast := x })⟩,
    ⟨lit "southwest", fun c j =>
      (storeStruct locationFields c.Southwest j).map (fun x => { c with Southwest := x })⟩ ]

/-- The fields of Step, in the order of the source (lines 54-74). -/
def stepFields : List (Field Step) :=
  [ ⟨lit "distance", fun c j =>
      (storeStruct textValueFields c.Distance j).map (fun x => { c with Distance := x })⟩,
    ⟨lit "duration", fun c j =>
      (storeStruct textValueFields c.Duration j).map (fun x => { c with Duration := x })⟩,
    ⟨lit "end_location", fun c j =>
      (storeStruct locationFields c.EndLocation j).map (fun x => { c with EndLocation := x })⟩,
    ⟨lit "html_instructions", fun c j =>
      (storeString c.HtmlInstructions j).map (fun x => { c with HtmlInstructions := x })⟩,
    ⟨lit "polyline", fun c j =>
      (storeStruct polylineFields c.Polyline j).map (fun x => { c with Polyline := x })⟩,
    ⟨lit "start_location", fun c j =>
      (storeStruct locationFields c.StartLocation j).map
        (fun x => { c with StartLocation := x })⟩,
    ⟨lit "travel_mode", fun c j =>
      (storeString c.TravelMode j).map (fun x => { c with TravelMode := x })⟩ ]

/-- The fields of Leg, in the order of the source (lines 35-76). -/
def legFields : List (Field Leg) :=
  [ ⟨lit "distance", fun c j =>
      (storeStruct textValueFields c.Distance j).map (fun x => { c with Distance := x })⟩,
    ⟨lit "duration", fun c j =>
      (storeStruct textValueFields c.Duration j).map (fun x => { c with Duration := x })⟩,
    ⟨lit "end_address", fun c j =>
      (storeString c.EndAddress j).map (fun x => { c with EndAddress := x })⟩,
    ⟨lit "end_location", fun c j =>
      (storeStruct locationFields c.EndLocation j).map (fun x => { c with EndLocation := x })⟩,
    ⟨lit "start_address", fun c j =>
      (storeString c.StartAddress j).map (fun x => { c with StartAddress := x })⟩,
    ⟨lit "start_location", fun c j =>
      (storeStruct locationFields c.StartLocation j).map
        (fun x => { c with StartLocation := x })⟩,
    ⟨lit "steps", fun c j =>
      (storeSlice (storeStruct stepFields) {} c.Steps j).map (fun x => { c with Steps := x })⟩,
    ⟨lit "via_waypoint", fun c j =>
      (storeSlice storeAny .nil c.ViaWaypoint j).map (fun x => { c with ViaWaypoint := x })⟩ ]

/-- The fields of Route, in the order of the source (lines 23-83). -/
def routeFields : List (Field Route) :=
  [ ⟨lit "bounds", fun c j =>
      (storeStruct boundsFields c.Bounds j).map (fun x => { c with Bounds := x })⟩,
    ⟨lit "copyrights", fun c j =>
      (storeString c.Copyrights j).map (fun x => { c with Copyrights := x })⟩,
    ⟨lit "legs", fun c j =>
      (storeSlice (storeStruct legFields) {} c.Legs j).map (fun x => { c with Legs := x })⟩,
    ⟨lit "overview_polyline", fun c j =>
      (storeStruct polylineFields c.OverviewPolyline j).map
        (fun x => { c with OverviewPolyline := x })⟩,
    ⟨lit "summary", fun c j =>
      (storeString c.Summary j).map (fun x => { c with Summary := x })⟩,
    ⟨lit "warnings", fun c j =>
      (storeSlice storeAny .nil c.Warnings j).map (fun x => { c with Warnings := x })⟩,
    ⟨lit "waypoint_order", fun c j =>
      (storeSlice storeAny .nil c.WaypointOrder j).map
        (fun x => { c with WaypointOrder := x })⟩ ]

/-- The fields of Directions (`routes`, `status`). -/
def directionsFields : List (Field Directions) :=
  [ ⟨lit "routes", fun c j =>
      (storeSlice (storeStruct routeFields) {} c.Routes j).map (fun x => { c with Routes := x })⟩,
    ⟨lit "status", fun c j =>
      (storeString c.Status j).map (fun x => { c with Status := x })⟩ ]

/-- The call `unmarshal(&ret)` with `ret` a nil *Directions: null leaves `ret` nil, any other
value is stored into a freshly allocated Directions. -/
def unmarshal (j : JSON) : Except Error (Option Directions) :=
  match j with
  | .null => .ok none
  | _ => (storeStruct directionsFields {} j).map some

/-! ## decodeJSON (directions.go, lines 88-96) -/

/-- The function decodeJSON: decodes JSON out of the reader.  The result `none` is the nil
pointer. -/
def decodeJSON (r : Reader) : Except Error (Option Directions) :=
  match readValue r with
  | .error err => .error err
  | .ok j =>
    match unmarshal j with
    | .error err => .error err
    | .ok ret => .ok ret

/-! ## net/url: query strings

url.Parse itself is not modelled: encodeURL below takes it as a parameter, and a URL value is
whatever url.Parse returns. -/

/-- Whether every element of a string is a byte value (below 256), as in every Go string. -/
def isBytes (s : GoString) : Prop := ∀ b ∈ s, b < 256

instance (s : GoString) : Decidable (isBytes s) := by unfold isBytes; infer_instance

/-- The type url.URL. -/
structure URL where
  Scheme : GoString := []
  Opaque : GoString := []
  User : Option (GoString × Option GoString) := none
  Host : GoString := []
  Path : GoString := []
  RawPath : GoString := []
  OmitHost : Bool := false
  ForceQuery : Bool := false
  RawQuery : GoString := []
  Fragment : GoString := []
  RawFragment : GoString := []
  deriving DecidableEq, Repr

/-- The type url.Values, map[string][]string, kept as the list of its entries, each key
once. -/
abbrev Values := List (GoString × List GoString)

/-- The lookup `v[key]`: the values of a key, none for a key that is absent. -/
def Values.get (v : Values) (key : GoString) : List GoString :=
  match v with
  | [] => []
  | (k, vs) :: rest => if k = key then vs else Values.get rest key

/-- The keys of the map. -/
def Values.keys (v : Values) : List GoString := v.map (fun e => e.1)

/-- The method Values.Set: `v[key] = []string{value}`. -/
def Values.Set (v : Values) (key value : GoString) : Values :=
  match v with
  | [] => [(key, [value])]
  | (k, vs) :: rest =>
    if k = key then (k, [value]) :: rest else (k, vs) :: Values.Set rest key value

/-- The statement `m[key] = append(m[key], value)`. -/
def Values.add (v : Values) (key value : GoString) : Values :=
  match v with
  | [] => [(key, [value])]
  | (k, vs) :: rest =>
    if k = key then (k, vs ++ [value]) :: rest else (k, vs) :: Values.add rest key value

/-- The function shouldEscape in the mode encodeQueryComponent: every byte but the ASCII
letters and digits and `-`, `_`, `.`, `~`. -/
def shouldEscape (c : Nat) : Bool :=
  !((decide (0x61 ≤ c) && decide (c ≤ 0x7A)) || (decide (0x41 ≤ c) && decide (c ≤ 0x5A)) ||
    (decide (0x30 ≤ c) && decide (c ≤ 0x39)) ||
    c == 0x2D || c == 0x5F || c == 0x2E || c == 0x7E)

/-- The table upperhex: the upper-case hexadecimal digit of a value below 16. -/
def upperhex (n : Nat) : Nat := if n < 10 then 0x30 + n else 0x41 + (n - 10)

/-- What QueryEscape writes for one byte: `+` for a space, `%XX` for a byte to escape, the
byte itself otherwise. -/
def escapeByte (c : Nat) : GoString :=
  if c = 0x20 then [0x2B]
  else if shouldEscape c then [0x25, upperhex (c / 16), upperhex (c % 16)]
  else [c]

/-- The function url.QueryEscape. -/
def QueryEscape (s : GoString) : GoString := s.flatMap escapeByte

/-- The function url.QueryUnescape: `%XX` becomes the byte, `+` a space; none (an
EscapeError) when a `%` is not followed by two hexadecimal digits. -/
def QueryUnescape : GoString → Option GoString
  | [] => some []
  | c :: rest =>
    if c = 0x25 then
      match rest with
      | a :: b :: rest' =>
        match hexVal a, hexVal b with
        | some x, some y => (QueryUnescape rest').map (fun t => (x * 16 + y) :: t)
        | _, _ => none
      | _ => none
    else if c = 0x2B then (QueryUnescape rest).map (fun t => 0x20 :: t)
    else (QueryUnescape rest).map (fun t => c :: t)

/-- The function strings.Cut for a one-byte separator: the text before its first occurrence
and the text after it (all of the string and nothing when it does not occur). -/
def cut (sep : Nat) (s : GoString) : GoString × GoString :=
  (s.takeWhile (fun c => c != sep), (s.dropWhile (fun c => c != sep)).tail)

/-- The body of the loop of parseQuery on one `&`-separated piece: a piece holding `;`, an
empty piece and a piece that does not unescape are passed over, any other is added. -/
def addPiece (m : Values) (piece : GoString) : Values :=
  if 0x3B ∈ piece then m
  else if piece = [] then m
  else
    match QueryUnescape (cut 0x3D piece).1, QueryUnescape (cut 0x3D piece).2 with
    | some key, some value => m.add key value
    | _, _ => m

/-- The method URL.Query on the raw query: url.ParseQuery with its error dropped.  The loop
of parseQuery cuts the query at every `&`. -/
def parseQuery (query : GoString) : Values := (query.splitOn 0x26).foldl addPiece []

/-- The method URL.Query. -/
def URL.Query (u : URL) : Values := parseQuery u.RawQuery

/-- The order of Go strings: bytewise lexicographic. -/
def strLe : GoString → GoString → Bool
  | [], _ => true
  | _ :: _, [] => false
  | a :: as, b :: bs => decide (a < b) || (a == b && strLe as bs)

/-- The inner loop of Values.Encode: one `key=value` per value, `&` between pairs. -/
def encodeValues (keyEscaped : GoString) : GoString → List GoString → GoString
  | buf, [] => buf
  | buf, v :: vs =>
    encodeValues keyEscaped
      ((if 0 < buf.length then buf ++ [0x26] else buf) ++ keyEscaped ++ [0x3D] ++ QueryEscape v) vs

/-- The outer loop of Values.Encode over the sorted keys. -/
def encodeKeys (v : Values) : GoString → List GoString → GoString
  | buf, [] => buf
  | buf, k :: ks => encodeKeys v (encodeValues (QueryEscape k) buf (v.get k)) ks

/-- The method Values.Encode: the pairs in the order of the sorted keys. -/
def Values.Encode (v : Values) : GoString :=
  encodeKeys v [] (v.keys.insertionSort (fun a b => strLe a b = true))

/-! ## encodeURL (directions.go, lines 98-110) -/

/-- The function encodeURL: encodes the URL given base URI, origin and destination.  `Parse`
is the function url.Parse. -/
def encodeURL (Parse : GoString → Except Error URL) (base origin destination : GoString) :
    Except Error URL :=
  match Parse base with
  | .error err => .error err
  | .ok u =>
    let q := u.Query
    let q := q.Set (lit "origin") origin
    let q := q.Set (lit "destination") destination
    let q := q.Set (lit "sensor") (lit "false")
    .ok { u with RawQuery := q.Encode }

/-! ## getDirections and main (directions.go, lines 112-129 and 150-166) -/

/-- The constant DIR_BASE_URL. -/
def DIR_BASE_URL : GoString := lit "http://maps.googleapis.com/maps/api/directions/json"

/-- The world outside the program: the function url.Parse, and `Get u`, the body of the
response to `http.Get(u.String())` or the error of the transport. -/
structure Env where
  Parse : GoString → Except Error URL
  Get : URL → Except Error Reader

/-- The function getDirections: finds out directions given an origin and destination. -/
def getDirections (env : Env) (origin destination : GoString) :
    Except Error (Option Directions) :=
  match encodeURL env.Parse DIR_BASE_URL origin destination with
  | .error err => .error err
  | .ok u =>
    match env.Get u with
    | .error err => .error err
    | .ok body =>
      match decodeJSON body with
      | .error err => .error err
      | .ok d => .ok d

/-- How a run of main ends: normally, by log.Fatal with an error (exit status 1), or by the
runtime panic of a nil pointer dereference. -/
inductive Exit where
  | success
  | fatal (err : Error)
  | nilDereference
  deriving DecidableEq, Repr

/-- What a run of main does: the text written to standard output and how the run ends. -/
structure Outcome where
  stdout : GoString
  exit : Exit
  deriving DecidableEq, Repr

/-- The function main, with `origin` and `destination` the values of the two flags after
flag.Parse.  A nil `directions` is dereferenced by `directions.Routes` after the header has been
printed. -/
def main (env : Env) (origin destination : GoString) : Outcome :=
  match getDirections env origin destination with
  | .error err => { stdout := [], exit := .fatal err }
  | .ok directions =>
    match directions with
    | none =>
      { stdout := origin ++ lit " -> " ++ destination ++ lit "\n\n", exit := .nilDereference }
    | some d => { stdout := mainOutput origin destination d, exit := .success }

/-! ## Scenarios used in the statements below -/

/-- The value url.Parse returns for DIR_BASE_URL. -/
def dirBaseURL : URL :=
  { Scheme := lit "http", Host := lit "maps.googleapis.com",
    Path := lit "/maps/api/directions/json" }

/-- The response body of the end-to-end scenario of the specification. -/
def scenarioBody : GoString :=
  lit ("\x7b\"routes\":[\x7b\"legs\":[\x7b\"distance\":\x7b\"text\":\"5.0 mi\"\x7d," ++
    "\"steps\":[\x7b\"html_instructions\":\"Head <b>north</b> on Main St\"," ++
    "\"duration\":\x7b\"text\":\"2 mins\"\x7d\x7d," ++
    "\x7b\"html_instructions\":\"Turn <b>left</b>\",\"duration\":\x7b\"text\":\"1 min\"\x7d\x7d]" ++
    "\x7d]\x7d],\"status\":\"OK\"\x7d")

/-- A world in which url.Parse reads DIR_BASE_URL and the service answers every request with
the body `body`. -/
def worldAnswering (body : GoString) : Env :=
  { Parse := fun base => if base = DIR_BASE_URL then .ok dirBaseURL else .error (.Other []),
    Get := fun _ => .ok { data := body } }

/-! ## JSON text of a string (used to state claims about decodeJSON) -/

/-- The lower-case hexadecimal digit of a value below 16. -/
def lowerhex (n : Nat) : Nat := if n < 10 then 0x30 + n else 0x61 + (n - 10)

/-- The JSON text of one byte inside a string literal: the quote and the backslash are
escaped with a backslash, a control character is written `\u00XX`, any other byte stands for
itself. -/
def jsonEscapeByte (c : Nat) : GoString :=
  if c = 0x22 then [0x5C, 0x22]
  else if c = 0x5C then [0x5C, 0x5C]
  else if c < 0x20 then [0x5C, 0x75, 0x30, 0x30, lowerhex (c / 16), lowerhex (c % 16)]
  else [c]

/-- The JSON string literal of a string. -/
def jsonQuote (s : GoString) : GoString := [0x22] ++ s.flatMap jsonEscapeByte ++ [0x22]

/-- The JSON document with the given status and no routes. -/
def statusDocument (s : GoString) : GoString :=
  lit "\x7b\"status\":" ++ jsonQuote s ++ lit ",\"routes\":[]\x7d"

/-! ## The shape of a JSON document that fits the type Directions -/

/-- The Go types that occur in the type Directions. -/
inductive Schema where
  | string
  | int64
  | float64
  | any
  | slice (elem : Schema)
  | struct (fields : List (GoString × Schema))

/-- The type of the field a member name selects in a struct type: the field of exactly that
name, else the first field with the same folded name. -/
def fieldSchema (fields : List (GoString × Schema)) (key : GoString) : Option Schema :=
  match fields.find? (fun f => f.1 == key) with
  | some f => some f.2
  | none => (fields.find? (fun f => foldName f.1 == foldName key)).map (fun f => f.2)

mutual
/-- Whether every number inside a JSON value is within the float64 range. -/
def convertible : JSON → Bool
  | .null => true
  | .bool _ => true
  | .number l => (ParseFloat l).isSome
  | .string _ => true
  | .array es => convertibleList es
  | .object ms => convertibleMembers ms
/-- Whether every number inside the elements is within the float64 range. -/
def convertibleList : List JSON → Bool
  | [] => true
  | j :: js => convertible j && convertibleList js
/-- Whether every number inside the member values is within the float64 range. -/
def convertibleMembers : List (GoString × JSON) → Bool
  | [] => true
  | (_, j) :: js => convertible j && convertibleMembers js
end

mutual
/-- Whether a JSON value fits a Go type: null fits every type; a string fits string; an integer
literal within the int64 range fits int64; a number within the float64 range fits float64;
any value whose numbers are within the float64 range fits interface{}; an array of fitting
elements fits a slice; an object fits a struct when every member whose name selects a field
holds a value fitting that field (members that select no field may hold anything). -/
def conforms : Schema → JSON → Bool
  | _, .null => true
  | t, .bool _ =>
    match t with
    | .any => true
    | _ => false
  | t, .number l =>
    match t with
    | .int64 => (ParseInt l).isSome
    | .float64 => (ParseFloat l).isSome
    | .any => (ParseFloat l).isSome
    | _ => false
  | t, .string _ =>
    match t with
    | .string => true
    | .any => true
    | _ => false
  | t, .array es =>
    match t with
    | .slice elem => conformsAll elem es
    | .any => convertibleList es
    | _ => false
  | t, .object ms =>
    match t with
    | .struct fields => conformsMembers fields ms
    | .any => convertibleMembers ms
    | _ => false
/-- Whether every element fits the type. -/
def conformsAll : Schema → List JSON → Bool
  | _, [] => true
  | t, j :: js => conforms t j && conformsAll t js
/-- Whether every member that selects a field fits the type of that field. -/
def conformsMembers : List (GoString × Schema) → List (GoString × JSON) → Bool
  | _, [] => true
  | fields, (key, j) :: ms =>
    (match fieldSchema fields key with
      | some t => conforms t j
      | none => true) && conformsMembers fields ms
end

/-- The type of Location. -/
def locationSchema : Schema := .struct [(lit "lat", .float64), (lit "lng", .float64)]

/-- The type of TextValue. -/
def textValueSchema : Schema := .struct [(lit "text", .string), (lit "value", .int64)]

/-- The type of Polyline. -/
def polylineSchema : Schema := .struct [(lit "points", .string)]

/-- The type of Bounds. -/
def boundsSchema : Schema :=
  .struct [(lit "northeast", locationSchema), (lit "southwest", locationSchema)]

/-- The type of Step (lines 53-75). -/
def stepSchema : Schema :=
  .struct [(lit "distance", textValueSchema), (lit "duration", textValueSchema),
    (lit "end_location", locationSchema), (lit "html_instructions", .string),
    (lit "polyline", polylineSchema), (lit "start_location", locationSchema),
    (lit "travel_mode", .string)]

/-- The type of Leg (lines 34-77). -/
def legSchema : Schema :=
  .struct [(lit "distance", textValueSchema), (lit "duration", textValueSchema),
    (lit "end_address", .string), (lit "end_location", locationSchema),
    (lit "start_address", .string), (lit "start_location", locationSchema),
    (lit "steps", .slice stepSchema), (lit "via_waypoint", .slice .any)]

/-- The type of Route (lines 22-84). -/
def routeSchema : Schema :=
  .struct [(lit "bounds", boundsSchema), (lit "copyrights", .string),
    (lit "legs", .slice legSchema), (lit "overview_polyline", polylineSchema),
    (lit "summary", .string), (lit "warnings", .slice .any),
    (lit "waypoint_order", .slice .any)]

/-- The type Directions (lines 21-86). -/
def directionsSchema : Schema :=
  .struct [(lit "routes", .slice routeSchema), (lit "status", .string)]

/-- A store succeeds on every value that fits the type `t`. -/
def StoresAll {T : Type} (t : Schema) (store : T → JSON → Except Error T) : Prop :=
  ∀ cur j, conforms t j = true → ∃ x, store cur j = .ok x

/-- The fields of a struct as the decoder sees them go with the fields of a struct type: same
names in the same order, and each store succeeds on every value that fits the field's type. -/
def FieldsMatch {T : Type} (fields : List (Field T)) (types : List (GoString × Schema)) : Prop :=
  List.Forall₂ (fun f p => f.name = p.1 ∧ StoresAll p.2 f.store) fields types

/-- A response body with a member the type Directions does not know (holding a number outside
the float64 range), a null status and one route. -/
def permissiveBody : GoString :=
  lit ("\x7b\"x\":[1e999],\"status\":null," ++
    "\"routes\":[\x7b\"legs\":null,\"summary\":\"s\"\x7d]\x7d")

/-- The members of the object that `permissiveBody` holds. -/
def permissiveMembers : List (GoString × JSON) :=
  [(lit "x", .array [.number (lit "1e999")]), (lit "status", .null),
    (lit "routes", .array [.object [(lit "legs", .null), (lit "summary", .string (lit "s"))]])]

/-- The `key=value` pairs that Values.Encode writes for the keys `ks`, in order. -/
def encodedPairs (v : Values) (ks : List GoString) : List (GoString × GoString) :=
  ks.flatMap (fun k => (v.get k).map (fun x => (k, x)))

/-- The text of one pair in the encoded query. -/
def pairText (p : GoString × GoString) : GoString :=
  QueryEscape p.1 ++ [0x3D] ++ QueryEscape p.2

/-- Every key and every value of the map is a string of bytes. -/
def Values.isBytes (v : Values) : Prop :=
  ∀ e ∈ v, Stratus.isBytes e.1 ∧ ∀ x ∈ e.2, Stratus.isBytes x

/-- How Values.Encode appends one pair to its buffer: after `&` unless the buffer is empty. -/
def appendPair (buf seg : GoString) : GoString :=
  (if 0 < buf.length then buf ++ [0x26] else buf) ++ seg

/-! ## Facts about the UTF-8 functions -/

theorem firstSize_le (b : Nat) : firstSize b ≤ 4 := by
  unfold firstSize; split_ifs <;> omega

theorem firstSize_ne_one (b : Nat) (h : ¬ b < 0x80) : firstSize b ≠ 1 := by
  unfold firstSize; split_ifs <;> omega

theorem acceptLo_ge (b0 : Nat) : 0x80 ≤ acceptLo b0 := by
  unfold acceptLo; split_ifs <;> omega

theorem isCont_iff (c : Nat) : isCont c = true ↔ 0x80 ≤ c ∧ c ≤ 0xBF := by
  simp [isCont]

theorem isCont_false_iff (c : Nat) : isCont c = false ↔ ¬ (0x80 ≤ c ∧ c ≤ 0xBF) := by
  rw [← isCont_iff]; simp

theorem isCont_ascii (c : Nat) (hc : c < 0x80) : isCont c = false := by
  rw [isCont_false_iff]; omega

theorem decodeRune_cons (b : Nat) (r : GoString) :
    decodeRune (b :: r) = decodeAt b (r.getD 0 0) (r.getD 1 0) (r.getD 2 0) := by
  have hlo := acceptLo_ge b
  have h0 : isCont 0 = false := by decide
  have hf := firstSize_le b
  have hf1 := firstSize_ne_one b
  have hl : ¬ (b :: r).length < 1 := by simp
  unfold decodeRune decodeAt
  rw [if_neg hl]
  simp only [List.getD_cons_zero, List.getD_cons_succ]
  match r with
  | [] =>
    simp only [List.length_cons, List.length_nil, List.getD_nil, h0]
    split_ifs <;> first | omega | rfl
  | [b1] =>
    simp only [List.getD_cons_zero, List.getD_cons_succ, List.length_cons, List.length_nil,
      List.getD_nil, h0]
    split_ifs <;> first | omega | rfl
  | [b1, b2] =>
    simp only [List.getD_cons_zero, List.getD_cons_succ, List.length_cons, List.length_nil,
      List.getD_nil, h0]
    split_ifs <;> first | omega | rfl
  | b1 :: b2 :: b3 :: r =>
    have hl2 : ¬ (b :: b1 :: b2 :: b3 :: r).length < firstSize b := by
      simp only [List.length_cons]; omega
    rw [if_neg hl2]

theorem decodeAt_width_pos (b s1 s2 s3 : Nat) : 1 ≤ (decodeAt b s1 s2 s3).2 := by
  unfold decodeAt; split_ifs <;> dsimp only <;> omega

theorem firstSize_cases (b : Nat) :
    (b < 0x80 ∧ firstSize b = 1) ∨ (0x80 ≤ b ∧ b < 0xC2 ∧ firstSize b = 0) ∨
    (0xC2 ≤ b ∧ b < 0xE0 ∧ firstSize b = 2) ∨ (0xE0 ≤ b ∧ b < 0xF0 ∧ firstSize b = 3) ∨
    (0xF0 ≤ b ∧ b < 0xF5 ∧ firstSize b = 4) ∨ (0xF5 ≤ b ∧ firstSize b = 0) := by
  unfold firstSize; split_ifs <;> omega

theorem acceptLo_cases (b : Nat) :
    (b = 0xE0 ∧ acceptLo b = 0xA0) ∨ (b = 0xF0 ∧ acceptLo b = 0x90) ∨
    (b ≠ 0xE0 ∧ b ≠ 0xF0 ∧ acceptLo b = 0x80) := by
  unfold acceptLo; split_ifs <;> omega

theorem acceptHi_cases (b : Nat) :
    (b = 0xED ∧ acceptHi b = 0x9F) ∨ (b = 0xF4 ∧ acceptHi b = 0x8F) ∨
    (b ≠ 0xED ∧ b ≠ 0xF4 ∧ acceptHi b = 0xBF) := by
  unfold acceptHi; split_ifs <;> omega

theorem decodeAt_validRune (b s1 s2 s3 : Nat) : validRune (decodeAt b s1 s2 s3).1 := by
  have h1 := firstSize_cases b
  have h2 := acceptLo_cases b
  have h3 := acceptHi_cases b
  unfold decodeAt validRune MaxRune RuneError
  simp only [isCont_false_iff]
  split_ifs <;> dsimp only <;> omega

theorem encodeRune_two (b s1 : Nat) (hb : 0xC2 ≤ b ∧ b < 0xE0) (hs : 0x80 ≤ s1 ∧ s1 ≤ 0xBF) :
    encodeRune (b % 32 * 64 + s1 % 64) = [b, s1] := by
  unfold encodeRune MaxRune
  split_ifs <;> first
    | omega
    | (simp only [List.cons.injEq, and_true]; refine ⟨?_, ?_⟩ <;> omega)

theorem encodeRune_three (b s1 s2 : Nat) (hb : 0xE0 ≤ b ∧ b < 0xF0)
    (hs : acceptLo b ≤ s1 ∧ s1 ≤ acceptHi b) (hs2 : 0x80 ≤ s2 ∧ s2 ≤ 0xBF) :
    encodeRune (b % 16 * 4096 + s1 % 64 * 64 + s2 % 64) = [b, s1, s2] := by
  have h2 := acceptLo_cases b
  have h3 := acceptHi_cases b
  unfold encodeRune MaxRune
  split_ifs <;> first
    | omega
    | (simp only [List.cons.injEq, and_true]; refine ⟨?_, ?_, ?_⟩ <;> omega)

theorem encodeRune_four (b s1 s2 s3 : Nat) (hb : 0xF0 ≤ b ∧ b < 0xF5)
    (hs : acceptLo b ≤ s1 ∧ s1 ≤ acceptHi b) (hs2 : 0x80 ≤ s2 ∧ s2 ≤ 0xBF)
    (hs3 : 0x80 ≤ s3 ∧ s3 ≤ 0xBF) :
    encodeRune (b % 8 * 262144 + s1 % 64 * 4096 + s2 % 64 * 64 + s3 % 64) = [b, s1, s2, s3] := by
  have h2 := acceptLo_cases b
  have h3 := acceptHi_cases b
  unfold encodeRune MaxRune
  split_ifs <;> first
    | omega
    | (simp only [List.cons.injEq, and_true]; refine ⟨?_, ?_, ?_, ?_⟩ <;> omega)

theorem encodeRune_ascii (b : Nat) (h : b < 0x80) : encodeRune b = [b] := by
  unfold encodeRune; rw [if_pos h]

theorem encodeRune_decodeAt (b s1 s2 s3 : Nat)
    (h : b < 0x80 ∨ (decodeAt b s1 s2 s3).2 ≠ 1) :
    encodeRune (decodeAt b s1 s2 s3).1 = [b, s1, s2, s3].take (decodeAt b s1 s2 s3).2 := by
  have h1 := firstSize_cases b
  have h2 := acceptLo_ge b
  have h3 := acceptHi_cases b
  unfold decodeAt at h ⊢
  simp only [isCont_false_iff] at h ⊢
  split_ifs at h ⊢ <;> dsimp only at h ⊢ <;> try omega
  all_goals simp only [List.take_succ_cons, List.take_zero]
  · exact encodeRune_ascii b (by omega)
  · exact encodeRune_two b s1 (by omega) (by omega)
  · exact encodeRune_three b s1 s2 (by omega) (by omega) (by omega)
  · exact encodeRune_four b s1 s2 s3 (by omega) (by omega) (by omega) (by omega)

theorem decodeAt_encode2 (r x y : Nat) (h1 : ¬ r < 0x80) (h2 : r < 0x800) :
    decodeAt (0xC0 + r / 64) (0x80 + r % 64) x y = (r, 2) := by
  have h1 := firstSize_cases (0xC0 + r / 64)
  have h2 := acceptLo_cases (0xC0 + r / 64)
  have h3 := acceptHi_cases (0xC0 + r / 64)
  unfold decodeAt
  simp only [isCont_false_iff]
  split_ifs <;> first | omega | (refine Prod.ext ?_ ?_ <;> dsimp only; omega)

theorem decodeAt_encode3 (r x : Nat) (h1 : ¬ r < 0x800) (h2 : r < 0x10000)
    (h3 : ¬ (0xD800 ≤ r ∧ r ≤ 0xDFFF)) :
    decodeAt (0xE0 + r / 4096) (0x80 + r / 64 % 64) (0x80 + r % 64) x = (r, 3) := by
  have h1 := firstSize_cases (0xE0 + r / 4096)
  have h2 := acceptLo_cases (0xE0 + r / 4096)
  have h3 := acceptHi_cases (0xE0 + r / 4096)
  unfold decodeAt
  simp only [isCont_false_iff]
  split_ifs <;> first | omega | (refine Prod.ext ?_ ?_ <;> dsimp only; omega)

theorem decodeAt_encode4 (r : Nat) (h1 : ¬ r < 0x10000) (h2 : r ≤ 0x10FFFF) :
    decodeAt (0xF0 + r / 262144) (0x80 + r / 4096 % 64) (0x80 + r / 64 % 64) (0x80 + r % 64)
      = (r, 4) := by
  have h1 := firstSize_cases (0xF0 + r / 262144)
  have h2 := acceptLo_cases (0xF0 + r / 262144)
  have h3 := acceptHi_cases (0xF0 + r / 262144)
  unfold decodeAt
  simp only [isCont_false_iff]
  split_ifs <;> first | omega | (refine Prod.ext ?_ ?_ <;> dsimp only; omega)

theorem decodeRune_encodeRune (r : Nat) (hr : validRune r) (rest : GoString) :
    decodeRune (encodeRune r ++ rest) = (r, (encodeRune r).length) := by
  unfold validRune MaxRune at hr
  unfold encodeRune MaxRune
  split_ifs with c1 c2 c3 c4
  · rw [List.singleton_append, decodeRune_cons]; unfold decodeAt; rw [if_pos c1]; rfl
  · simp only [List.cons_append, List.nil_append, decodeRune_cons, List.getD_cons_zero,
      List.getD_cons_succ, List.length_cons, List.length_nil]
    exact decodeAt_encode2 r _ _ c1 c2
  · omega
  · simp only [List.cons_append, List.nil_append, decodeRune_cons, List.getD_cons_zero,
      List.getD_cons_succ, List.length_cons, List.length_nil]
    exact decodeAt_encode3 r _ c2 c4 (by omega)
  · simp only [List.cons_append, List.nil_append, decodeRune_cons, List.getD_cons_zero,
      List.getD_cons_succ, List.length_cons, List.length_nil]
    exact decodeAt_encode4 r c4 (by omega)

theorem decodeAt_s1_ascii (b s1 s2 s3 t1 t2 t3 : Nat) (h : s1 < 0x80) (h' : t1 < 0x80) :
    decodeAt b s1 s2 s3 = decodeAt b t1 t2 t3 := by
  have hlo := acceptLo_ge b
  unfold decodeAt
  split_ifs <;> first | omega | rfl

theorem decodeAt_s2_ascii (b s1 s2 s3 t2 t3 : Nat) (h : s2 < 0x80) (h' : t2 < 0x80) :
    decodeAt b s1 s2 s3 = decodeAt b s1 t2 t3 := by
  unfold decodeAt
  simp only [isCont_false_iff]
  split_ifs <;> first | omega | rfl

theorem decodeAt_s3_ascii (b s1 s2 s3 t3 : Nat) (h : s3 < 0x80) (h' : t3 < 0x80) :
    decodeAt b s1 s2 s3 = decodeAt b s1 s2 t3 := by
  unfold decodeAt
  simp only [isCont_false_iff]
  split_ifs <;> first | omega | rfl

theorem decodeRune_append_ascii (b : Nat) (a : GoString) (c : Nat) (rest : GoString)
    (hc : c < 0x80) : decodeRune (b :: a ++ c :: rest) = decodeRune (b :: a) := by
  rw [List.cons_append, decodeRune_cons, decodeRune_cons]
  match a with
  | [] =>
    simp only [List.nil_append, List.getD_cons_zero, List.getD_nil]
    exact decodeAt_s1_ascii _ _ _ _ _ _ _ hc (by omega)
  | [b1] =>
    simp only [List.cons_append, List.nil_append, List.getD_cons_zero, List.getD_cons_succ,
      List.getD_nil]
    exact decodeAt_s2_ascii _ _ _ _ _ _ hc (by omega)
  | [b1, b2] =>
    simp only [List.cons_append, List.nil_append, List.getD_cons_zero, List.getD_cons_succ,
      List.getD_nil]
    exact decodeAt_s3_ascii _ _ _ _ _ hc (by omega)
  | b1 :: b2 :: b3 :: r =>
    simp only [List.cons_append, List.getD_cons_zero, List.getD_cons_succ]

theorem decodeRune_width_le (b : Nat) (r : GoString) :
    (decodeRune (b :: r)).2 ≤ (b :: r).length := by
  have hlo := acceptLo_ge b
  have h1 := firstSize_cases b
  rw [decodeRune_cons]
  match r with
  | [] =>
    simp only [List.getD_nil, List.length_cons, List.length_nil]
    unfold decodeAt; simp only [isCont_false_iff]
    split_ifs <;> dsimp only <;> omega
  | [b1] =>
    simp only [List.getD_nil, List.length_cons, List.length_nil, List.getD_cons_zero,
      List.getD_cons_succ]
    unfold decodeAt; simp only [isCont_false_iff]
    split_ifs <;> dsimp only <;> omega
  | [b1, b2] =>
    simp only [List.getD_nil, List.length_cons, List.length_nil, List.getD_cons_zero,
      List.getD_cons_succ]
    unfold decodeAt; simp only [isCont_false_iff]
    split_ifs <;> dsimp only <;> omega
  | b1 :: b2 :: b3 :: r =>
    simp only [List.length_cons]
    unfold decodeAt
    split_ifs <;> dsimp only <;> omega

theorem decodeRune_width_pos (b : Nat) (r : GoString) : 1 ≤ (decodeRune (b :: r)).2 := by
  rw [decodeRune_cons]; exact decodeAt_width_pos _ _ _ _

theorem decodeRune_validRune (b : Nat) (r : GoString) : validRune (decodeRune (b :: r)).1 := by
  rw [decodeRune_cons]; exact decodeAt_validRune _ _ _ _

theorem decodeRune_ascii (c : Nat) (rest : GoString) (hc : c < 0x80) :
    decodeRune (c :: rest) = (c, 1) := by
  rw [decodeRune_cons]; unfold decodeAt; rw [if_pos hc]

theorem decodeAt_lt_ascii (b s1 s2 s3 : Nat) (h : (decodeAt b s1 s2 s3).1 < 0x80) :
    (decodeAt b s1 s2 s3).1 = b := by
  have h1 := firstSize_cases b
  have h2 := acceptLo_cases b
  have h3 := acceptHi_cases b
  unfold decodeAt RuneError at h ⊢
  simp only [isCont_false_iff] at h ⊢
  split_ifs at h ⊢ <;> dsimp only at h ⊢ <;> omega

theorem runesAux_append_ascii (a : GoString) (k c : Nat) (rest : GoString) (hc : c < 0x80)
    (hk : k ≤ a.length) : runesAux k (a ++ c :: rest) = runesAux k a ++ c :: runes rest := by
  induction a generalizing k with
  | nil =>
    have hk0 : k = 0 := by simpa using hk
    subst hk0
    simp only [List.nil_append, runesAux, decodeRune_ascii c rest hc, runes]
  | cons b a ih =>
    cases k with
    | zero =>
      have hw := decodeRune_width_le b a
      have e := decodeRune_append_ascii b a c rest hc
      simp only [List.cons_append] at e ⊢
      simp only [runesAux, e, List.cons_append]
      rw [ih _ (by simp only [List.length_cons] at hw; omega)]
    | succ k =>
      simp only [List.cons_append, runesAux]
      exact ih k (by simp only [List.length_cons] at hk; omega)

theorem runes_append_ascii (a : GoString) (c : Nat) (rest : GoString) (hc : c < 0x80) :
    runes (a ++ c :: rest) = runes a ++ c :: runes rest :=
  runesAux_append_ascii a 0 c rest hc (Nat.zero_le _)

theorem mem_runesAux_ascii (s : GoString) (k r : Nat) (hr : r < 0x80)
    (h : r ∈ runesAux k s) : r ∈ s := by
  induction s generalizing k with
  | nil => simp [runesAux] at h
  | cons b s ih =>
    cases k with
    | zero =>
      simp only [runesAux, List.mem_cons] at h
      rcases h with h | h
      · have := decodeAt_lt_ascii b (s.getD 0 0) (s.getD 1 0) (s.getD 2 0)
          (by rw [← decodeRune_cons, ← h]; exact hr)
        rw [← decodeRune_cons, ← h] at this
        simp [this]
      · exact List.mem_cons_of_mem _ (ih _ h)
    | succ k =>
      simp only [runesAux] at h
      exact List.mem_cons_of_mem _ (ih _ h)

theorem validRune_of_mem_runesAux (s : GoString) (k r : Nat) (h : r ∈ runesAux k s) :
    validRune r := by
  induction s generalizing k with
  | nil => simp [runesAux] at h
  | cons b s ih =>
    cases k with
    | zero =>
      simp only [runesAux, List.mem_cons] at h
      rcases h with h | h
      · rw [h]; exact decodeRune_validRune b s
      · exact ih _ h
    | succ k =>
      simp only [runesAux] at h
      exact ih _ h

theorem runesAux_skip (a rest : GoString) :
    runesAux a.length (a ++ rest) = runes rest := by
  induction a with
  | nil => rfl
  | cons b a ih => simp only [List.length_cons, List.cons_append, runesAux]; exact ih

theorem encodeRune_ne_nil (r : Nat) : encodeRune r ≠ [] := by
  unfold encodeRune; split_ifs <;> simp

theorem runes_encodeRune_append (r : Nat) (hr : validRune r) (rest : GoString) :
    runes (encodeRune r ++ rest) = r :: runes rest := by
  have hd := decodeRune_encodeRune r hr rest
  cases he : encodeRune r with
  | nil => exact absurd he (encodeRune_ne_nil r)
  | cons b e =>
    rw [he] at hd
    simp only [List.cons_append] at hd ⊢
    simp only [runes, runesAux, hd, List.length_cons, Nat.add_sub_cancel]
    rw [runesAux_skip]; rfl

theorem runes_flatMap_encodeRune (rs : List Nat) (h : ∀ r ∈ rs, validRune r) :
    runes (rs.flatMap encodeRune) = rs := by
  induction rs with
  | nil => rfl
  | cons r rs ih =>
    rw [List.flatMap_cons, runes_encodeRune_append r (h r (List.mem_cons_self _ _)),
      ih (fun x hx => h x (List.mem_cons_of_mem _ hx))]

theorem take_getD_eq (l : GoString) (w : Nat) (hw : w ≤ l.length) (h4 : w ≤ 4) :
    [l.getD 0 0, l.getD 1 0, l.getD 2 0, l.getD 3 0].take w = l.take w := by
  match l, w with
  | _, 0 => simp
  | [], w + 1 => simp at hw
  | [a], 1 => simp
  | [a], w + 2 => simp at hw
  | a :: b :: l, 1 => simp
  | [a, b], 2 => simp
  | [a, b], w + 3 => simp at hw
  | a :: b :: c :: l, 2 => simp
  | [a, b, c], 3 => simp
  | [a, b, c], w + 4 => simp at hw
  | a :: b :: c :: d :: l, 3 => simp
  | a :: b :: c :: d :: l, 4 => simp
  | a :: b :: c :: d :: l, w + 5 => omega

theorem encodeRune_decodeRune (b : Nat) (r : GoString)
    (h : b < 0x80 ∨ (decodeRune (b :: r)).2 ≠ 1) :
    encodeRune (decodeRune (b :: r)).1 = (b :: r).take (decodeRune (b :: r)).2 := by
  have hw := decodeRune_width_le b r
  rw [decodeRune_cons] at h hw ⊢
  rw [encodeRune_decodeAt _ _ _ _ h]
  have h4 : (decodeAt b (r.getD 0 0) (r.getD 1 0) (r.getD 2 0)).2 ≤ 4 := by
    unfold decodeAt; split_ifs <;> dsimp only <;> omega
  have := take_getD_eq (b :: r) _ hw h4
  simpa only [List.getD_cons_zero, List.getD_cons_succ] using this

theorem flatMap_runesAux_of_valid (s : GoString) (k : Nat) (hk : k ≤ s.length)
    (hv : validAux k s = true) : (runesAux k s).flatMap encodeRune = s.drop k := by
  induction s generalizing k with
  | nil => simp [runesAux]
  | cons b s ih =>
    cases k with
    | zero =>
      have hw := decodeRune_width_le b s
      have hp := decodeRune_width_pos b s
      simp only [validAux, Bool.and_eq_true, Bool.or_eq_true, decide_eq_true_eq] at hv
      simp only [runesAux, List.flatMap_cons, List.drop_zero]
      rw [encodeRune_decodeRune b s hv.1, ih _ (by simp only [List.length_cons] at hw; omega) hv.2]
      obtain ⟨w, hw'⟩ : ∃ w, (decodeRune (b :: s)).2 = w + 1 := ⟨_, (Nat.sub_add_cancel hp).symm⟩
      rw [hw']
      simp only [List.take_succ_cons, Nat.add_sub_cancel, List.cons_append, List.take_append_drop]
    | succ k =>
      simp only [validAux] at hv
      simp only [runesAux, List.drop_succ_cons]
      exact ih k (by simp only [List.length_cons] at hk; omega) hv

theorem flatMap_runes_of_valid (s : GoString) (hv : ValidString s = true) :
    (runes s).flatMap encodeRune = s :=
  flatMap_runesAux_of_valid s 0 (Nat.zero_le _) hv

/-! ## Facts about stripHTML -/

theorem foldl_stripStep (rs : List Nat) (st : StripState) :
    (rs.foldl stripStep st).b = st.b ++ (stripRunes st.tagHere rs).flatMap encodeRune := by
  induction rs generalizing st with
  | nil => simp [stripRunes]
  | cons v vs ih =>
    rw [List.foldl_cons, ih]
    unfold stripStep
    rw [stripRunes]
    split_ifs with h1 h2 h3 h4 <;> simp_all

theorem stripHTML_eq (s : GoString) :
    stripHTML s = (stripRunes false (runes s)).flatMap encodeRune := by
  unfold stripHTML; rw [foldl_stripStep]; rfl

theorem stripRunes_append_lt (f : Bool) (xs ys : List Nat) :
    stripRunes f (xs ++ 0x3C :: ys) = stripRunes f xs ++ stripRunes true ys := by
  induction xs generalizing f with
  | nil => simp [stripRunes]
  | cons v vs ih =>
    simp only [List.cons_append, stripRunes]
    split_ifs <;> simp [ih]

theorem stripRunes_true_of_no_gt (xs : List Nat) (h : 0x3E ∉ xs) : stripRunes true xs = [] := by
  induction xs with
  | nil => rfl
  | cons v vs ih =>
    have hv : v ≠ 0x3E := fun e => h (by simp [e])
    have ih' := ih (fun m => h (List.mem_cons_of_mem _ m))
    simp only [stripRunes, ih', hv, if_false, if_true, ite_self]

theorem stripRunes_true_append_gt (xs ys : List Nat) (h : 0x3E ∉ xs) :
    stripRunes true (xs ++ 0x3E :: ys) = stripRunes false ys := by
  induction xs with
  | nil => simp [stripRunes]
  | cons v vs ih =>
    have hv : v ≠ 0x3E := fun e => h (by simp [e])
    have ih' := ih (fun m => h (List.mem_cons_of_mem _ m))
    rw [List.cons_append, stripRunes]
    simp only [hv, if_false, if_true, ite_self, ih']

theorem stripRunes_of_no_delims (xs : List Nat) (h1 : 0x3C ∉ xs) (h2 : 0x3E ∉ xs) :
    stripRunes false xs = xs := by
  induction xs with
  | nil => rfl
  | cons v vs ih =>
    have hv1 : v ≠ 0x3C := fun e => h1 (by simp [e])
    have hv2 : v ≠ 0x3E := fun e => h2 (by simp [e])
    have ih' := ih (fun m => h1 (List.mem_cons_of_mem _ m)) (fun m => h2 (List.mem_cons_of_mem _ m))
    simp [stripRunes, ih', hv1, hv2]

theorem not_mem_stripRunes (f : Bool) (xs : List Nat) :
    0x3C ∉ stripRunes f xs ∧ 0x3E ∉ stripRunes f xs := by
  induction xs generalizing f with
  | nil => simp [stripRunes]
  | cons v vs ih =>
    rw [stripRunes]
    split_ifs with h1 h2 h3
    · exact ih _
    · exact ih _
    · exact ih _
    · have := ih f
      simp only [List.mem_cons, not_or]
      exact ⟨⟨fun e => h1 e.symm, this.1⟩, ⟨fun e => h2 e.symm, this.2⟩⟩

theorem mem_of_mem_stripRunes (f : Bool) (xs : List Nat) (r : Nat) (h : r ∈ stripRunes f xs) :
    r ∈ xs := by
  induction xs generalizing f with
  | nil => simp [stripRunes] at h
  | cons v vs ih =>
    rw [stripRunes] at h
    split_ifs at h with h1 h2 h3
    · exact List.mem_cons_of_mem _ (ih _ h)
    · exact List.mem_cons_of_mem _ (ih _ h)
    · exact List.mem_cons_of_mem _ (ih _ h)
    · rcases List.mem_cons.1 h with h | h
      · simp [h]
      · exact List.mem_cons_of_mem _ (ih _ h)

theorem not_mem_runes_of_not_mem (s : GoString) (c : Nat) (hc : c < 0x80) (h : c ∉ s) :
    c ∉ runes s := fun m => h (mem_runesAux_ascii s 0 c hc m)

/-! ## Claims about stripHTML -/

theorem lit_lt : lit "<" = [0x3C] := by decide

theorem lit_gt : lit ">" = [0x3E] := by decide

/-- Claim C2: a tag, from `<` (byte 0x3C) through the next `>` (byte 0x3E), is removed whatever
its content `t` and wherever it stands, and the text around it keeps its order:
stripHTML(a ++ "<" ++ t ++ ">" ++ b) = stripHTML(a) ++ stripHTML(b) whenever `t` holds no `>`;
with the instances "a<b>c", "<x>" and "<a><b>text". -/
theorem stripHTML_tag_removed (a t b : GoString) (ht : 0x3E ∉ t) :
    stripHTML (a ++ lit "<" ++ t ++ lit ">" ++ b) = stripHTML a ++ stripHTML b ∧
    stripHTML (lit "a<b>c") = lit "ac" ∧ stripHTML (lit "<x>") = lit "" ∧
    stripHTML (lit "<a><b>text") = lit "text" := by
  refine ⟨?_, by decide, by decide, by decide⟩
  have e : a ++ lit "<" ++ t ++ lit ">" ++ b = a ++ 0x3C :: (t ++ 0x3E :: b) := by
    simp [lit_lt, lit_gt]
  rw [e, stripHTML_eq, stripHTML_eq, stripHTML_eq, runes_append_ascii a _ _ (by omega),
    runes_append_ascii t _ _ (by omega), stripRunes_append_lt,
    stripRunes_true_append_gt _ _ (not_mem_runes_of_not_mem t _ (by omega) ht),
    List.flatMap_append]

/-- Witness for claim C2 at a = "x", t = "b class=y", b = "z". -/
theorem stripHTML_tag_removed_witness :
    0x3E ∉ lit "b class=y" ∧
    stripHTML (lit "x" ++ lit "<" ++ lit "b class=y" ++ lit ">" ++ lit "z")
      = stripHTML (lit "x") ++ stripHTML (lit "z") :=
  ⟨by decide, (stripHTML_tag_removed (lit "x") (lit "b class=y") (lit "z") (by decide)).1⟩

/-- Claim C3: once a `<` has no following `>`, every remaining character is discarded:
stripHTML(p ++ "<" ++ t) = stripHTML(p) whenever `t` holds no `>` (byte 0x3E);
with the instance stripHTML("a<b") = "a". -/
theorem stripHTML_unterminated (p t : GoString) (ht : 0x3E ∉ t) :
    stripHTML (p ++ lit "<" ++ t) = stripHTML p ∧ stripHTML (lit "a<b") = lit "a" := by
  refine ⟨?_, by decide⟩
  have e : p ++ lit "<" ++ t = p ++ 0x3C :: t := by simp [lit_lt]
  rw [e, stripHTML_eq, stripHTML_eq, runes_append_ascii p _ _ (by omega), stripRunes_append_lt,
    stripRunes_true_of_no_gt _ (not_mem_runes_of_not_mem t _ (by omega) ht), List.append_nil]

/-- Witness for claim C3 at p = "Head ", t = "b north". -/
theorem stripHTML_unterminated_witness :
    0x3E ∉ lit "b north" ∧
      stripHTML (lit "Head " ++ lit "<" ++ lit "b north") = stripHTML (lit "Head ") :=
  ⟨by decide, (stripHTML_unterminated (lit "Head ") (lit "b north") (by decide)).1⟩

/-- Claim C7, refuted as stated: "a>b" holds no `<`, yet stripHTML drops its `>` and returns
"ab"; and the one-byte string 0xFF (not valid UTF-8) holds no `<`, yet comes back as the three
bytes of U+FFFD. -/
theorem stripHTML_not_identity_without_lt :
    (0x3C ∉ lit "a>b" ∧ stripHTML (lit "a>b") = lit "ab" ∧ stripHTML (lit "a>b") ≠ lit "a>b") ∧
    (0x3C ∉ [0xFF] ∧ stripHTML [0xFF] = [0xEF, 0xBF, 0xBD] ∧ stripHTML [0xFF] ≠ [0xFF]) := by
  decide

/-- Claim C7, amended: for every valid UTF-8 string that holds neither `<` (byte 0x3C) nor `>`
(byte 0x3E), stripHTML returns the string itself; with the instance "no tags". -/
theorem stripHTML_identity_without_delims (s : GoString) (hv : ValidString s = true)
    (h1 : 0x3C ∉ s) (h2 : 0x3E ∉ s) :
    stripHTML s = s ∧ stripHTML (lit "no tags") = lit "no tags" := by
  refine ⟨?_, by decide⟩
  rw [stripHTML_eq, stripRunes_of_no_delims _ (not_mem_runes_of_not_mem s _ (by omega) h1)
    (not_mem_runes_of_not_mem s _ (by omega) h2), flatMap_runes_of_valid s hv]

/-- Witness for the amended claim C7 at s = "café &amp; thé" (entities are not touched). -/
theorem stripHTML_identity_without_delims_witness :
    ValidString (lit "café &amp; thé") = true ∧ 0x3C ∉ lit "café &amp; thé" ∧
    0x3E ∉ lit "café &amp; thé" ∧ stripHTML (lit "café &amp; thé") = lit "café &amp; thé" :=
  ⟨by decide, by decide, by decide,
    (stripHTML_identity_without_delims (lit "café &amp; thé") (by decide) (by decide)
      (by decide)).1⟩

/-- Claim C8: stripHTML is idempotent, stripHTML(stripHTML(s)) = stripHTML(s) for every
string s. -/
theorem stripHTML_idempotent (s : GoString) : stripHTML (stripHTML s) = stripHTML s := by
  have hvalid : ∀ r ∈ stripRunes false (runes s), validRune r := fun r hr =>
    validRune_of_mem_runesAux s 0 r (mem_of_mem_stripRunes _ _ r hr)
  have hn := not_mem_stripRunes false (runes s)
  rw [stripHTML_eq (stripHTML s), stripHTML_eq s, runes_flatMap_encodeRune _ hvalid,
    stripRunes_of_no_delims _ hn.1 hn.2]

/-! ## Facts about the output loops -/

theorem printSteps_eq (out : GoString) (k : Nat) (ss : List Step) :
    printSteps out k ss =
      out ++ (ss.enumFrom (k + 1)).flatMap (fun ks => expectedStepLine ks.1 ks.2) := by
  induction ss generalizing out k with
  | nil => simp [printSteps]
  | cons s ss ih =>
    simp only [printSteps, ih, List.enumFrom_cons, List.flatMap_cons, expectedStepLine,
      List.append_assoc]

theorem printLegs_eq (out : GoString) (vs : List Leg) :
    printLegs out vs = out ++ vs.flatMap expectedLeg := by
  induction vs generalizing out with
  | nil => simp [printLegs]
  | cons v vs ih =>
    simp only [printLegs, ih, printSteps_eq, List.flatMap_cons, expectedLeg, List.append_assoc]

theorem printRoutes_eq (out : GoString) (rs : List Route) :
    printRoutes out rs =
      out ++ rs.flatMap (fun r => r.Legs.elems.flatMap expectedLeg ++ lit "\n") := by
  induction rs generalizing out with
  | nil => simp [printRoutes]
  | cons r rs ih =>
    simp only [printRoutes, ih, printLegs_eq, List.flatMap_cons, List.append_assoc]

theorem mainOutput_eq (origin destination : GoString) (d : Directions) :
    mainOutput origin destination d = expectedOutput origin destination d := by
  unfold mainOutput expectedOutput
  rw [printRoutes_eq]

theorem scenario_body :
    scenario.Routes.elems.flatMap (fun r => r.Legs.elems.flatMap expectedLeg ++ lit "\n")
      = lit "5.0 mi\n1 - Head north on Main St (2 mins)\n2 - Turn left (1 min)\n\n" := by
  decide

/-! ## Claims about main and decodeJSON on given inputs -/

/-- Claim C1: whenever getDirections returns a (non-nil) Directions value `d`, main writes to
standard output the header `origin -> destination` and an empty line, then for every route, in
order, for every leg the distance text on a line and one line `k - instruction (duration)` per
step with `k` counted from 1 in every leg and the instruction stripped of tags, then one empty
line per route; for the scenario of the specification that is the text given there. -/
theorem main_stdout (env : Env) (origin destination : GoString) (d : Directions)
    (h : getDirections env origin destination = .ok (some d)) :
    (main env origin destination).stdout = expectedOutput origin destination d ∧
    expectedOutput origin destination scenario =
      origin ++ lit " -> " ++ destination ++
        lit "\n\n5.0 mi\n1 - Head north on Main St (2 mins)\n2 - Turn left (1 min)\n\n" := by
  constructor
  · unfold main
    rw [h]
    exact mainOutput_eq origin destination d
  · unfold expectedOutput
    rw [scenario_body]
    have e : lit "\n\n5.0 mi\n1 - Head north on Main St (2 mins)\n2 - Turn left (1 min)\n\n"
        = lit "\n\n" ++
          lit "5.0 mi\n1 - Head north on Main St (2 mins)\n2 - Turn left (1 min)\n\n" := by
      decide
    rw [e]
    simp only [List.append_assoc]

/-- Witness for claim C1: the service answers with the body of the scenario. -/
theorem main_stdout_witness :
    getDirections (worldAnswering scenarioBody) (lit "A") (lit "B") = .ok (some scenario) ∧
    (main (worldAnswering scenarioBody) (lit "A") (lit "B")).stdout =
      expectedOutput (lit "A") (lit "B") scenario ∧
    (main (worldAnswering scenarioBody) (lit "A") (lit "B")).stdout =
      lit "A -> B" ++
        lit "\n\n5.0 mi\n1 - Head north on Main St (2 mins)\n2 - Turn left (1 min)\n\n" :=
  ⟨by decide, (main_stdout (worldAnswering scenarioBody) (lit "A") (lit "B") scenario
    (by decide)).1,
   (main_stdout (worldAnswering scenarioBody) (lit "A") (lit "B") scenario (by decide)).1.trans
    ((main_stdout (worldAnswering scenarioBody) (lit "A") (lit "B") scenario (by decide)).2.trans
      (by decide))⟩

/-- Claim C9: decodeJSON on the empty byte stream returns an error (io.EOF) and no result. -/
theorem decodeJSON_empty : decodeJSON { data := [] } = .error .EOF := by
  decide

/-- Claim C4, at its failing input: on the body `null` decodeJSON returns the nil pointer and
no error, getDirections passes it on, and main ends in a nil pointer dereference after printing
the header; an array, a string, a number or a boolean at the top level is rejected. -/
theorem decodeJSON_null :
    decodeJSON { data := lit "null" } = .ok none ∧
    getDirections (worldAnswering (lit "null")) (lit "A") (lit "B") = .ok none ∧
    main (worldAnswering (lit "null")) (lit "A") (lit "B") =
      { stdout := lit "A -> B\n\n", exit := .nilDereference } ∧
    decodeJSON { data := lit "[]" } = .error (.UnmarshalTypeError (lit "array")) ∧
    decodeJSON { data := lit "\"OK\"" } = .error (.UnmarshalTypeError (lit "string")) ∧
    decodeJSON { data := lit "1" } = .error (.UnmarshalTypeError (lit "number")) ∧
    decodeJSON { data := lit "true" } = .error (.UnmarshalTypeError (lit "bool")) := by
  decide

/-! ## Facts about the scanner and unquote on string literals -/

theorem scanBytes_append (sc sc' : Scanner) (a b : GoString) (h : scanBytes sc a = .more sc') :
    scanBytes sc (a ++ b) = scanBytes sc' b := by
  induction a generalizing sc with
  | nil =>
    simp only [scanBytes, ScanOutcome.more.injEq] at h
    rw [List.nil_append, h]
  | cons c a ih =>
    simp only [scanBytes, List.cons_append] at h ⊢
    cases hs : scanStep sc c with
    | «continue» sc1 => rw [hs] at h; simp only at h ⊢; exact ih sc1 h
    | endAt v i => rw [hs] at h; simp at h
    | error => rw [hs] at h; simp at h

theorem lowerhex_hexVal (n : Nat) (h : n < 16) : hexVal (lowerhex n) = some n := by
  unfold hexVal lowerhex
  split_ifs <;> first | omega | (simp only [Option.some.injEq]; omega)

theorem scanBytes_jsonEscapeByte (sc : Scanner) (c : Nat) (rest : GoString)
    (h : sc.step = .inString) :
    scanBytes sc (jsonEscapeByte c ++ rest) =
      scanBytes { sc with tok := sc.tok ++ jsonEscapeByte c } rest := by
  obtain ⟨st, ps, tok, top⟩ := sc
  simp only at h
  subst h
  unfold jsonEscapeByte
  split_ifs with h1 h2 h3
  · subst h1
    simp [scanBytes, scanStep, unescapeByte]
  · subst h2
    simp [scanBytes, scanStep, unescapeByte]
  · have e1 := lowerhex_hexVal (c / 16) (by omega)
    have e2 := lowerhex_hexVal (c % 16) (by omega)
    have e0 : hexVal 48 = some 0 := by decide
    simp [scanBytes, scanStep, hexDigit, e0, e1, e2]
  · simp [scanBytes, scanStep, h1, h2, h3]

theorem scanBytes_string_body (s : GoString) (sc : Scanner) (rest : GoString)
    (h : sc.step = .inString) :
    scanBytes sc (s.flatMap jsonEscapeByte ++ rest) =
      scanBytes { sc with tok := sc.tok ++ s.flatMap jsonEscapeByte } rest := by
  induction s generalizing sc with
  | nil => simp
  | cons c s ih =>
    rw [List.flatMap_cons, List.append_assoc, scanBytes_jsonEscapeByte sc c _ h,
      ih { sc with tok := sc.tok ++ jsonEscapeByte c } h]
    simp only [List.append_assoc]

theorem unquoteAux_skip (a rest : GoString) :
    unquoteAux a.length (a ++ rest) = unquoteAux 0 rest := by
  induction a with
  | nil => rfl
  | cons b a ih => simp only [List.length_cons, List.cons_append, unquoteAux]; exact ih

theorem encodeRune_bytes_ge (r : Nat) (h : ¬ r < 0x80) : ∀ b ∈ encodeRune r, 0x80 ≤ b := by
  unfold encodeRune
  split_ifs <;> simp <;> omega

theorem jsonEscapeByte_of_ge (b : Nat) (h : 0x80 ≤ b) : jsonEscapeByte b = [b] := by
  unfold jsonEscapeByte
  split_ifs <;> first | omega | rfl

theorem flatMap_jsonEscapeByte_of_ge (l : GoString) (h : ∀ b ∈ l, 0x80 ≤ b) :
    l.flatMap jsonEscapeByte = l := by
  induction l with
  | nil => rfl
  | cons b l ih =>
    rw [List.flatMap_cons, jsonEscapeByte_of_ge b (h b (List.mem_cons_self _ _)),
      ih (fun x hx => h x (List.mem_cons_of_mem _ hx))]
    rfl

theorem unquoteAux_u00 (x y a b : Nat) (rest : GoString) (hx : hexVal x = some a)
    (hy : hexVal y = some b) (hlt : a * 16 + b < 0x80) :
    unquoteAux 0 (0x5C :: 0x75 :: 0x30 :: 0x30 :: x :: y :: rest) =
      (unquoteAux 0 rest).map (fun t => (a * 16 + b) :: t) := by
  have e0 : hexVal 48 = some 0 := by decide
  have e4 : ¬ (0xD800 ≤ a * 16 + b ∧ a * 16 + b < 0xE000) := by omega
  rw [unquoteAux]
  simp only [getu4, e0, hx, hy, Nat.zero_mul, Nat.zero_add, e4, if_true, if_false,
    encodeRune_ascii _ hlt, reduceCtorEq]
  simp only [unquoteAux]
  rfl

theorem unquoteAux_escaped_rune (r : Nat) (hr : validRune r) (rest : GoString) :
    unquoteAux 0 ((encodeRune r).flatMap jsonEscapeByte ++ rest) =
      (unquoteAux 0 rest).map (fun t => encodeRune r ++ t) := by
  by_cases h : r < 0x80
  · rw [encodeRune_ascii r h]
    simp only [List.flatMap_cons, List.flatMap_nil, List.append_nil]
    unfold jsonEscapeByte
    split_ifs with h1 h2 h3
    · subst h1
      simp [unquoteAux, unescapeByte]
    · subst h2
      simp [unquoteAux, unescapeByte]
    · have e1 := lowerhex_hexVal (r / 16) (by omega)
      have e2 := lowerhex_hexVal (r % 16) (by omega)
      have e3 : r / 16 * 16 + r % 16 = r := by omega
      have := unquoteAux_u00 _ _ _ _ rest e1 e2 (by omega)
      rw [e3] at this
      exact this
    · simp [unquoteAux, h1, h2, h3, h]
  · have hge := encodeRune_bytes_ge r h
    rw [flatMap_jsonEscapeByte_of_ge _ hge]
    have hd := decodeRune_encodeRune r hr rest
    cases he : encodeRune r with
    | nil => exact absurd he (encodeRune_ne_nil r)
    | cons b e =>
      rw [he] at hd hge
      have hb : 0x80 ≤ b := hge b (List.mem_cons_self _ _)
      have c1 : ¬ b = 0x5C := by omega
      have c2 : ¬ (b = 0x22 ∨ b < 0x20) := by omega
      have c3 : ¬ b < 0x80 := by omega
      simp only [List.cons_append] at hd ⊢
      simp only [unquoteAux, c1, c2, c3, if_false, hd, List.length_cons, Nat.add_sub_cancel]
      rw [unquoteAux_skip, he]
      rfl

theorem unquoteAux_escaped_runes (rs : List Nat) (h : ∀ r ∈ rs, validRune r) :
    unquoteAux 0 ((rs.flatMap encodeRune).flatMap jsonEscapeByte) =
      some (rs.flatMap encodeRune) := by
  induction rs with
  | nil => rfl
  | cons r rs ih =>
    rw [List.flatMap_cons, List.flatMap_append,
      unquoteAux_escaped_rune r (h r (List.mem_cons_self _ _)),
      ih (fun x hx => h x (List.mem_cons_of_mem _ hx))]
    rfl

theorem unquote_escaped (s : GoString) (hv : ValidString s = true) :
    unquote (s.flatMap jsonEscapeByte) = some s := by
  have e := flatMap_runes_of_valid s hv
  have hr : ∀ r ∈ runes s, validRune r := fun r hr => validRune_of_mem_runesAux s 0 r hr
  have := unquoteAux_escaped_runes (runes s) hr
  rw [e] at this
  exact this



theorem scanBytes_status_prefix :
    scanBytes {} (lit "\x7b\"status\":" ++ [0x22]) =
      .more { step := .inString, parseState := [.objectValue [] (some (lit "status"))] } := by
  decide

theorem scanBytes_status_suffix (s : GoString) :
    scanBytes { step := .endValue, parseState := [.objectValue [(lit "status", .string s)] none] }
        (lit ",\"routes\":[]\x7d") =
      .value (.object [(lit "status", .string s), (lit "routes", .array [])]) := by
  rfl

theorem scanBytes_statusDocument (s : GoString) (hv : ValidString s = true) :
    scanBytes {} (statusDocument s) =
      .value (.object [(lit "status", .string s), (lit "routes", .array [])]) := by
  have e : statusDocument s =
      (lit "\x7b\"status\":" ++ [0x22]) ++
        (s.flatMap jsonEscapeByte ++ (0x22 :: lit ",\"routes\":[]\x7d")) := by
    simp [statusDocument, jsonQuote]
  rw [e, scanBytes_append _ _ _ _ scanBytes_status_prefix, scanBytes_string_body _ _ _ rfl]
  rw [scanBytes]
  simp only [scanStep, if_true, List.nil_append, unquote_escaped s hv, Scanner.valueRead]
  exact scanBytes_status_suffix s

theorem readValue_statusDocument (s : GoString) (hv : ValidString s = true) :
    readValue { data := statusDocument s } =
      .ok (.object [(lit "status", .string s), (lit "routes", .array [])]) := by
  unfold readValue
  simp only [scanBytes_statusDocument s hv]

theorem unmarshal_status (s : GoString) :
    unmarshal (.object [(lit "status", .string s), (lit "routes", .array [])]) =
      .ok (some { Routes := {}, Status := s }) := by
  rfl

/-- Claim C10, at an input where it fails: the status made of the single byte 0xFF is not
valid UTF-8; the document that holds it between the quotes is decoded without error, but the
status of the result is U+FFFD (the bytes EF BF BD), which encoding/json writes for an invalid
byte, not the status given. -/
theorem decodeJSON_invalid_utf8_status :
    ValidString [0xFF] = false ∧
    statusDocument [0xFF] = lit "\x7b\"status\":\"" ++ [0xFF] ++ lit "\",\"routes\":[]\x7d" ∧
    decodeJSON { data := statusDocument [0xFF] } =
      .ok (some { Routes := {}, Status := [0xEF, 0xBF, 0xBD] }) ∧
    decodeJSON { data := statusDocument [0xFF] } ≠
      .ok (some { Routes := {}, Status := [0xFF] }) := by
  decide

/-- Claim C10, amended: for every status string `s` that is valid UTF-8, decodeJSON on the
document `{"status": s, "routes": []}` succeeds with the status `s` and no routes, whatever
`s` is; in particular for the status ZERO_RESULTS. -/
theorem decodeJSON_status (s : GoString) (hv : ValidString s = true) :
    decodeJSON { data := statusDocument s } = .ok (some { Routes := {}, Status := s }) ∧
    decodeJSON { data := lit "\x7b\"status\":\"ZERO_RESULTS\",\"routes\":[]\x7d" } =
      .ok (some { Routes := {}, Status := lit "ZERO_RESULTS" }) := by
  refine ⟨?_, by decide⟩
  unfold decodeJSON
  rw [readValue_statusDocument s hv]
  simp only [unmarshal_status]

/-- Witness for claim C10 at the status `NOT_FOUND "x"` (the quotes are escaped in the
document). -/
theorem decodeJSON_status_witness :
    ValidString (lit "NOT_FOUND \"x\"") = true ∧
    statusDocument (lit "NOT_FOUND \"x\"") =
      lit "\x7b\"status\":\"NOT_FOUND \\\"x\\\"\",\"routes\":[]\x7d" ∧
    decodeJSON { data := statusDocument (lit "NOT_FOUND \"x\"") } =
      .ok (some { Routes := {}, Status := lit "NOT_FOUND \"x\"" }) :=
  ⟨by decide, by decide, (decodeJSON_status (lit "NOT_FOUND \"x\"") (by decide)).1⟩

/-! ## Decoding succeeds on documents that fit the type -/

mutual
theorem toAny_ok : (j : JSON) → convertible j = true → ∃ a, toAny j = .ok a
  | .null, _ => ⟨_, rfl⟩
  | .bool _, _ => ⟨_, rfl⟩
  | .string _, _ => ⟨_, rfl⟩
  | .number l, h => by
    simp only [convertible] at h
    obtain ⟨f, hf⟩ := Option.isSome_iff_exists.1 h
    exact ⟨.float64 f, by simp only [toAny, hf]⟩
  | .array es, h => by
    simp only [convertible] at h
    obtain ⟨l, hl⟩ := toAnyList_ok es h
    exact ⟨.slice l, by simp only [toAny, hl]⟩
  | .object ms, h => by
    simp only [convertible] at h
    obtain ⟨m, hm⟩ := toAnyMembers_ok ms h
    exact ⟨.map (m.foldl (fun acc kv => mapSet acc kv.1 kv.2) []), by simp only [toAny, hm]⟩
theorem toAnyList_ok : (es : List JSON) → convertibleList es = true → ∃ l, toAnyList es = .ok l
  | [], _ => ⟨_, rfl⟩
  | j :: js, h => by
    simp only [convertibleList, Bool.and_eq_true] at h
    obtain ⟨a, ha⟩ := toAny_ok j h.1
    obtain ⟨l, hl⟩ := toAnyList_ok js h.2
    exact ⟨a :: l, by simp only [toAnyList, ha, hl]⟩
theorem toAnyMembers_ok : (ms : List (GoString × JSON)) → convertibleMembers ms = true →
    ∃ m, toAnyMembers ms = .ok m
  | [], _ => ⟨_, rfl⟩
  | (k, j) :: js, h => by
    simp only [convertibleMembers, Bool.and_eq_true] at h
    obtain ⟨a, ha⟩ := toAny_ok j h.1
    obtain ⟨l, hl⟩ := toAnyMembers_ok js h.2
    exact ⟨(k, a) :: l, by simp only [toAnyMembers, ha, hl]⟩
end

theorem findField_of_match {T : Type} (fields : List (Field T))
    (types : List (GoString × Schema)) (hm : FieldsMatch fields types) (key : GoString)
    (f : Field T) (hf : findField fields key = some f) :
    ∃ t, fieldSchema types key = some t ∧ StoresAll t f.store := by
  have find_some : ∀ (p : GoString → Bool) (fields : List (Field T))
      (types : List (GoString × Schema)), FieldsMatch fields types → ∀ f,
      fields.find? (fun f => p f.name) = some f →
      ∃ q, types.find? (fun q => p q.1) = some q ∧ StoresAll q.2 f.store := by
    intro p fields types hm
    induction hm with
    | nil => intro f hf; simp at hf
    | @cons a b l1 l2 hh _ ih =>
      intro f hf
      simp only [List.find?_cons] at hf ⊢
      rw [← hh.1]
      cases hp : p a.name with
      | true =>
        rw [hp] at hf
        simp only [Option.some.injEq] at hf
        subst hf
        exact ⟨b, rfl, hh.2⟩
      | false =>
        rw [hp] at hf
        exact ih f hf
  have find_none : ∀ (p : GoString → Bool) (fields : List (Field T))
      (types : List (GoString × Schema)), FieldsMatch fields types →
      fields.find? (fun f => p f.name) = none → types.find? (fun q => p q.1) = none := by
    intro p fields types hm
    induction hm with
    | nil => intro _; rfl
    | @cons a b l1 l2 hh _ ih =>
      intro hf
      simp only [List.find?_cons] at hf ⊢
      rw [← hh.1]
      cases hp : p a.name with
      | true => rw [hp] at hf; simp at hf
      | false => rw [hp] at hf; exact ih hf
  unfold findField at hf
  unfold fieldSchema
  cases h1 : fields.find? (fun f => f.name == key) with
  | some g =>
    rw [h1] at hf
    simp only [Option.some.injEq] at hf
    subst hf
    obtain ⟨q, hq, hs⟩ := find_some (fun n => n == key) fields types hm g h1
    exact ⟨q.2, by rw [hq], hs⟩
  | none =>
    rw [h1] at hf
    simp only at hf
    have hn := find_none (fun n => n == key) fields types hm h1
    obtain ⟨q, hq, hs⟩ := find_some (fun n => foldName n == foldName key) fields types hm f hf
    exact ⟨q.2, by rw [hn]; simp only [hq, Option.map_some'], hs⟩

theorem storeMembers_ok {T : Type} (fields : List (Field T))
    (types : List (GoString × Schema)) (hm : FieldsMatch fields types)
    (ms : List (GoString × JSON)) (cur : T) (hc : conformsMembers types ms = true) :
    ∃ x, storeMembers fields cur ms = .ok x := by
  induction ms generalizing cur with
  | nil => exact ⟨cur, rfl⟩
  | cons kv ms ih =>
    obtain ⟨key, v⟩ := kv
    simp only [conformsMembers, Bool.and_eq_true] at hc
    simp only [storeMembers]
    cases hf : findField fields key with
    | none => exact ih cur hc.2
    | some f =>
      obtain ⟨t, ht, hs⟩ := findField_of_match fields types hm key f hf
      have hv := hc.1
      rw [ht] at hv
      obtain ⟨x, hx⟩ := hs cur v hv
      simp only [hx]
      exact ih x hc.2

theorem storeStruct_ok {T : Type} (fields : List (Field T))
    (types : List (GoString × Schema)) (hm : FieldsMatch fields types) :
    StoresAll (.struct types) (storeStruct fields) := by
  intro cur j hc
  cases j with
  | null => exact ⟨cur, rfl⟩
  | object ms =>
    simp only [conforms] at hc
    exact storeMembers_ok fields types hm ms cur hc
  | bool b => simp [conforms] at hc
  | number l => simp [conforms] at hc
  | string s => simp [conforms] at hc
  | array es => simp [conforms] at hc

theorem storeElems_ok {α : Type} (t : Schema) (store : α → JSON → Except Error α) (zero : α)
    (hs : StoresAll t store) (es : List JSON) (backing : List α)
    (hc : conformsAll t es = true) : ∃ xs, storeElems store zero backing es = .ok xs := by
  induction es generalizing backing with
  | nil => exact ⟨[], rfl⟩
  | cons j js ih =>
    simp only [conformsAll, Bool.and_eq_true] at hc
    obtain ⟨x, hx⟩ := hs (backing.headD zero) j hc.1
    obtain ⟨xs, hxs⟩ := ih backing.tail hc.2
    exact ⟨x :: xs, by simp only [storeElems, hx, hxs]⟩

theorem storeSlice_ok {α : Type} (t : Schema) (store : α → JSON → Except Error α) (zero : α)
    (hs : StoresAll t store) : StoresAll (.slice t) (storeSlice store zero) := by
  intro cur j hc
  cases j with
  | null => exact ⟨{}, rfl⟩
  | array es =>
    simp only [conforms] at hc
    cases es with
    | nil => exact ⟨{}, rfl⟩
    | cons e es =>
      obtain ⟨xs, hxs⟩ := storeElems_ok t store zero hs (e :: es) (cur.elems ++ cur.spare) hc
      exact ⟨{ elems := xs, spare := (cur.elems ++ cur.spare).drop (e :: es).length },
        by simp only [storeSlice, hxs]⟩
  | bool b => simp [conforms] at hc
  | number l => simp [conforms] at hc
  | string s => simp [conforms] at hc
  | object ms => simp [conforms] at hc

theorem storeString_ok : StoresAll .string storeString := by
  intro cur j hc
  cases j with
  | null => exact ⟨cur, rfl⟩
  | string s => exact ⟨s, rfl⟩
  | bool b => simp [conforms] at hc
  | number l => simp [conforms] at hc
  | array es => simp [conforms] at hc
  | object ms => simp [conforms] at hc

theorem storeInt64_ok : StoresAll .int64 storeInt64 := by
  intro cur j hc
  cases j with
  | null => exact ⟨cur, rfl⟩
  | number l =>
    simp only [conforms] at hc
    obtain ⟨n, hn⟩ := Option.isSome_iff_exists.1 hc
    exact ⟨n, by simp only [storeInt64, hn]⟩
  | bool b => simp [conforms] at hc
  | string s => simp [conforms] at hc
  | array es => simp [conforms] at hc
  | object ms => simp [conforms] at hc

theorem storeFloat64_ok : StoresAll .float64 storeFloat64 := by
  intro cur j hc
  cases j with
  | null => exact ⟨cur, rfl⟩
  | number l =>
    simp only [conforms] at hc
    obtain ⟨n, hn⟩ := Option.isSome_iff_exists.1 hc
    exact ⟨n, by simp only [storeFloat64, hn]⟩
  | bool b => simp [conforms] at hc
  | string s => simp [conforms] at hc
  | array es => simp [conforms] at hc
  | object ms => simp [conforms] at hc

theorem convertible_of_conforms_any (j : JSON) (h : conforms .any j = true) :
    convertible j = true := by
  cases j <;> simp_all [conforms, convertible]

theorem storeAny_ok : StoresAll .any storeAny := by
  intro cur j hc
  exact toAny_ok j (convertible_of_conforms_any j hc)

theorem StoresAll.map {T U : Type} {t : Schema} {store : U → JSON → Except Error U}
    (hs : StoresAll t store) (get : T → U) (set : T → U → T) :
    StoresAll t (fun c j => (store (get c) j).map (set c)) := by
  intro cur j hc
  obtain ⟨x, hx⟩ := hs (get cur) j hc
  exact ⟨set cur x, by simp only [hx, Except.map]⟩



theorem locationFields_match :
    FieldsMatch locationFields [(lit "lat", .float64), (lit "lng", .float64)] :=
  .cons ⟨rfl, storeFloat64_ok.map (fun c => c.Lat) (fun c x => { c with Lat := x })⟩
    (.cons ⟨rfl, storeFloat64_ok.map (fun c => c.Lng) (fun c x => { c with Lng := x })⟩ .nil)

theorem storeLocation_ok : StoresAll locationSchema (storeStruct locationFields) :=
  storeStruct_ok _ _ locationFields_match

theorem textValueFields_match :
    FieldsMatch textValueFields [(lit "text", .string), (lit "value", .int64)] :=
  .cons ⟨rfl, storeString_ok.map (fun c => c.Text) (fun c x => { c with Text := x })⟩
    (.cons ⟨rfl, storeInt64_ok.map (fun c => c.Value) (fun c x => { c with Value := x })⟩ .nil)

theorem storeTextValue_ok : StoresAll textValueSchema (storeStruct textValueFields) :=
  storeStruct_ok _ _ textValueFields_match

theorem polylineFields_match : FieldsMatch polylineFields [(lit "points", .string)] :=
  .cons ⟨rfl, storeString_ok.map (fun c => c.Points) (fun c x => { c with Points := x })⟩ .nil

theorem storePolyline_ok : StoresAll polylineSchema (storeStruct polylineFields) :=
  storeStruct_ok _ _ polylineFields_match

theorem boundsFields_match :
    FieldsMatch boundsFields
      [(lit "northeast", locationSchema), (lit "southwest", locationSchema)] :=
  .cons ⟨rfl, storeLocation_ok.map (fun c => c.Northeast) (fun c x => { c with Northeast := x })⟩
    (.cons ⟨rfl, storeLocation_ok.map (fun c => c.Southwest)
      (fun c x => { c with Southwest := x })⟩ .nil)

theorem storeBounds_ok : StoresAll boundsSchema (storeStruct boundsFields) :=
  storeStruct_ok _ _ boundsFields_match

theorem stepFields_match :
    FieldsMatch stepFields
      [(lit "distance", textValueSchema), (lit "duration", textValueSchema),
        (lit "end_location", locationSchema), (lit "html_instructions", .string),
        (lit "polyline", polylineSchema), (lit "start_location", locationSchema),
        (lit "travel_mode", .string)] :=
  .cons ⟨rfl, storeTextValue_ok.map (fun c => c.Distance) (fun c x => { c with Distance := x })⟩
  (.cons ⟨rfl, storeTextValue_ok.map (fun c => c.Duration) (fun c x => { c with Duration := x })⟩
  (.cons ⟨rfl, storeLocation_ok.map (fun c => c.EndLocation)
    (fun c x => { c with EndLocation := x })⟩
  (.cons ⟨rfl, storeString_ok.map (fun c => c.HtmlInstructions)
    (fun c x => { c with HtmlInstructions := x })⟩
  (.cons ⟨rfl, storePolyline_ok.map (fun c => c.Polyline) (fun c x => { c with Polyline := x })⟩
  (.cons ⟨rfl, storeLocation_ok.map (fun c => c.StartLocation)
    (fun c x => { c with StartLocation := x })⟩
  (.cons ⟨rfl, storeString_ok.map (fun c => c.TravelMode)
    (fun c x => { c with TravelMode := x })⟩ .nil))))))

theorem storeStep_ok : StoresAll stepSchema (storeStruct stepFields) :=
  storeStruct_ok _ _ stepFields_match

theorem legFields_match :
    FieldsMatch legFields
      [(lit "distance", textValueSchema), (lit "duration", textValueSchema),
        (lit "end_address", .string), (lit "end_location", locationSchema),
        (lit "start_address", .string), (lit "start_location", locationSchema),
        (lit "steps", .slice stepSchema), (lit "via_waypoint", .slice .any)] :=
  .cons ⟨rfl, storeTextValue_ok.map (fun c => c.Distance) (fun c x => { c with Distance := x })⟩
  (.cons ⟨rfl, storeTextValue_ok.map (fun c => c.Duration) (fun c x => { c with Duration := x })⟩
  (.cons ⟨rfl, storeString_ok.map (fun c => c.EndAddress)
    (fun c x => { c with EndAddress := x })⟩
  (.cons ⟨rfl, storeLocation_ok.map (fun c => c.EndLocation)
    (fun c x => { c with EndLocation := x })⟩
  (.cons ⟨rfl, storeString_ok.map (fun c => c.StartAddress)
    (fun c x => { c with StartAddress := x })⟩
  (.cons ⟨rfl, storeLocation_ok.map (fun c => c.StartLocation)
    (fun c x => { c with StartLocation := x })⟩
  (.cons ⟨rfl, (storeSlice_ok _ _ {} storeStep_ok).map (fun c => c.Steps)
    (fun c x => { c with Steps := x })⟩
  (.cons ⟨rfl, (storeSlice_ok _ _ .nil storeAny_ok).map (fun c => c.ViaWaypoint)
    (fun c x => { c with ViaWaypoint := x })⟩ .nil)))))))

theorem storeLeg_ok : StoresAll legSchema (storeStruct legFields) :=
  storeStruct_ok _ _ legFields_match

theorem routeFields_match :
    FieldsMatch routeFields
      [(lit "bounds", boundsSchema), (lit "copyrights", .string),
        (lit "legs", .slice legSchema), (lit "overview_polyline", polylineSchema),
        (lit "summary", .string), (lit "warnings", .slice .any),
        (lit "waypoint_order", .slice .any)] :=
  .cons ⟨rfl, storeBounds_ok.map (fun c => c.Bounds) (fun c x => { c with Bounds := x })⟩
  (.cons ⟨rfl, storeString_ok.map (fun c => c.Copyrights)
    (fun c x => { c with Copyrights := x })⟩
  (.cons ⟨rfl, (storeSlice_ok _ _ {} storeLeg_ok).map (fun c => c.Legs)
    (fun c x => { c with Legs := x })⟩
  (.cons ⟨rfl, storePolyline_ok.map (fun c => c.OverviewPolyline)
    (fun c x => { c with OverviewPolyline := x })⟩
  (.cons ⟨rfl, storeString_ok.map (fun c => c.Summary) (fun c x => { c with Summary := x })⟩
  (.cons ⟨rfl, (storeSlice_ok _ _ .nil storeAny_ok).map (fun c => c.Warnings)
    (fun c x => { c with Warnings := x })⟩
  (.cons ⟨rfl, (storeSlice_ok _ _ .nil storeAny_ok).map (fun c => c.WaypointOrder)
    (fun c x => { c with WaypointOrder := x })⟩ .nil))))))

theorem storeRoute_ok : StoresAll routeSchema (storeStruct routeFields) :=
  storeStruct_ok _ _ routeFields_match

theorem directionsFields_match :
    FieldsMatch directionsFields [(lit "routes", .slice routeSchema), (lit "status", .string)] :=
  .cons ⟨rfl, (storeSlice_ok _ _ {} storeRoute_ok).map (fun c => c.Routes)
    (fun c x => { c with Routes := x })⟩
  (.cons ⟨rfl, storeString_ok.map (fun c => c.Status) (fun c x => { c with Status := x })⟩ .nil)

theorem storeDirections_ok : StoresAll directionsSchema (storeStruct directionsFields) :=
  storeStruct_ok _ _ directionsFields_match

/-! ## Claims about decodeJSON on documents of any shape -/

/-- Claim C6, refuted as stated: the document `{"status":1}` is structurally valid JSON with
an object at the top level, yet decodeJSON returns an error, because the field `status` is a
string and the document gives it a number. -/
theorem decodeJSON_rejects_number_status :
    readValue { data := lit "\x7b\"status\":1\x7d" } =
      .ok (.object [(lit "status", .number (lit "1"))]) ∧
    decodeJSON { data := lit "\x7b\"status\":1\x7d" } =
      .error (.UnmarshalTypeError (lit "number")) := by
  decide

/-- Claim C6, amended: when the first JSON value of the stream is read in full and is an
object in which every member whose name selects a field of the Go type, at any depth, holds
null or a value fitting that field (a string for a string field, an integer literal within
int64 for `value`, a number within the float64 range for `lat` and `lng`, an object for a nested
struct, an array for `routes`, `legs`, `steps`, `warnings`, `waypoint_order`, `via_waypoint`),
decodeJSON succeeds and returns a Directions value; members that select no field are ignored
whatever they hold, and fields without a member keep their zero values. -/
theorem decodeJSON_ok_of_conforms (r : Reader) (ms : List (GoString × JSON))
    (hr : readValue r = .ok (.object ms))
    (hc : conforms directionsSchema (.object ms) = true) :
    (∃ d, decodeJSON r = .ok (some d)) ∧
    decodeJSON { data := lit "\x7b\x7d" } = .ok (some {}) ∧
    decodeJSON { data := lit "\x7b\"foo\":\x7b\"bar\":[1,\"x\",null]\x7d,\"status\":\"OK\"\x7d" } =
      .ok (some { Status := lit "OK" }) := by
  refine ⟨?_, by decide, by decide⟩
  obtain ⟨d, hd⟩ := storeDirections_ok {} (.object ms) hc
  refine ⟨d, ?_⟩
  unfold decodeJSON
  rw [hr]
  simp only [unmarshal, hd, Except.map]

/-- Witness for the amended claim C6: a document with an unknown member holding a number
outside the float64 range, a null status and a route. -/
theorem decodeJSON_ok_of_conforms_witness :
    readValue { data := permissiveBody } = .ok (.object permissiveMembers) ∧
    conforms directionsSchema (.object permissiveMembers) = true ∧
    ∃ d, decodeJSON { data := permissiveBody } = .ok (some d) :=
  ⟨by decide, by decide,
    (decodeJSON_ok_of_conforms { data := permissiveBody } permissiveMembers (by decide)
      (by decide)).1⟩

/-! ## Facts about query strings -/

theorem upperhex_hexVal (n : Nat) (h : n < 16) : hexVal (upperhex n) = some n := by
  unfold hexVal upperhex
  split_ifs <;> first | omega | (simp only [Option.some.injEq]; omega)

theorem upperhex_not_sep (n : Nat) :
    upperhex n ≠ 0x26 ∧ upperhex n ≠ 0x3B ∧ upperhex n ≠ 0x3D ∧ upperhex n ≠ 0x25 ∧
      upperhex n ≠ 0x2B := by
  unfold upperhex
  split_ifs <;> omega

theorem shouldEscape_false_iff (c : Nat) :
    shouldEscape c = false ↔
      (0x61 ≤ c ∧ c ≤ 0x7A) ∨ (0x41 ≤ c ∧ c ≤ 0x5A) ∨ (0x30 ≤ c ∧ c ≤ 0x39) ∨
        c = 0x2D ∨ c = 0x5F ∨ c = 0x2E ∨ c = 0x7E := by
  simp only [shouldEscape, Bool.not_eq_false', Bool.or_eq_true, Bool.and_eq_true,
    decide_eq_true_eq, beq_iff_eq]
  omega

theorem escapeByte_not_sep (c b : Nat) (hb : b ∈ escapeByte c) :
    b ≠ 0x26 ∧ b ≠ 0x3B ∧ b ≠ 0x3D := by
  unfold escapeByte at hb
  split_ifs at hb with h1 h2
  · simp only [List.mem_singleton] at hb; omega
  · have u1 := upperhex_not_sep (c / 16)
    have u2 := upperhex_not_sep (c % 16)
    simp only [List.mem_cons, List.mem_singleton, List.not_mem_nil, or_false] at hb
    rcases hb with hb | hb | hb
    · omega
    · rw [hb]; exact ⟨u1.1, u1.2.1, u1.2.2.1⟩
    · rw [hb]; exact ⟨u2.1, u2.2.1, u2.2.2.1⟩
  · simp only [List.mem_singleton] at hb
    have := (shouldEscape_false_iff c).1 (by simpa using h2)
    omega

theorem QueryEscape_not_sep (s : GoString) (b : Nat) (hb : b ∈ QueryEscape s) :
    b ≠ 0x26 ∧ b ≠ 0x3B ∧ b ≠ 0x3D := by
  unfold QueryEscape at hb
  obtain ⟨c, _, hc⟩ := List.mem_flatMap.1 hb
  exact escapeByte_not_sep c b hc

theorem QueryUnescape_cons (c : Nat) (rest : GoString) (h1 : c ≠ 0x25) :
    QueryUnescape (c :: rest) =
      (QueryUnescape rest).map (fun t => (if c = 0x2B then 0x20 else c) :: t) := by
  rw [QueryUnescape.eq_def]
  simp only [h1, if_false]
  split_ifs <;> rfl

theorem QueryUnescape_percent (a b x y : Nat) (rest : GoString) (ha : hexVal a = some x)
    (hb : hexVal b = some y) :
    QueryUnescape (0x25 :: a :: b :: rest) =
      (QueryUnescape rest).map (fun t => (x * 16 + y) :: t) := by
  rw [QueryUnescape.eq_def]
  simp only [if_true, ha, hb]

theorem QueryUnescape_escapeByte (c : Nat) (hc : c < 256) (rest : GoString) :
    QueryUnescape (escapeByte c ++ rest) = (QueryUnescape rest).map (fun t => c :: t) := by
  unfold escapeByte
  split_ifs with h1 h2
  · subst h1
    rw [List.singleton_append, QueryUnescape_cons _ _ (by decide)]
    rfl
  · have e1 := upperhex_hexVal (c / 16) (by omega)
    have e2 := upperhex_hexVal (c % 16) (by omega)
    have e3 : c / 16 * 16 + c % 16 = c := by omega
    have := QueryUnescape_percent _ _ _ _ rest e1 e2
    rw [e3] at this
    exact this
  · have := (shouldEscape_false_iff c).1 (by simpa using h2)
    have c1 : ¬ c = 0x25 := by omega
    have c2 : ¬ c = 0x2B := by omega
    rw [List.singleton_append, QueryUnescape_cons _ _ c1, if_neg c2]

theorem QueryUnescape_QueryEscape (s : GoString) (hs : isBytes s) :
    QueryUnescape (QueryEscape s) = some s := by
  induction s with
  | nil => rfl
  | cons c s ih =>
    have hc : c < 256 := hs c (List.mem_cons_self _ _)
    have hs' : isBytes s := fun b hb => hs b (List.mem_cons_of_mem _ hb)
    have := QueryUnescape_escapeByte c hc (QueryEscape s)
    unfold QueryEscape at this ih ⊢
    rw [List.flatMap_cons, this, ih hs']
    rfl

theorem cut_pairText (p : GoString × GoString) :
    cut 0x3D (pairText p) = (QueryEscape p.1, QueryEscape p.2) := by
  have hk : ∀ b ∈ QueryEscape p.1, (b != 0x3D) = true := fun b hb => by
    simpa using (QueryEscape_not_sep _ b hb).2.2
  unfold cut pairText
  rw [List.append_assoc, List.takeWhile_append_of_pos hk, List.dropWhile_append_of_pos hk]
  simp

theorem addPiece_pairText (m : Values) (p : GoString × GoString) (h1 : isBytes p.1)
    (h2 : isBytes p.2) : addPiece m (pairText p) = m.add p.1 p.2 := by
  have hsemi : (0x3B : Nat) ∉ pairText p := by
    unfold pairText
    simp only [List.append_assoc, List.mem_append, List.mem_singleton, not_or]
    exact ⟨fun h => (QueryEscape_not_sep _ _ h).2.1 rfl, by decide,
      fun h => (QueryEscape_not_sep _ _ h).2.1 rfl⟩
  have hne : pairText p ≠ [] := by
    unfold pairText
    simp
  unfold addPiece
  rw [if_neg hsemi, if_neg hne, cut_pairText]
  simp only [QueryUnescape_QueryEscape _ h1, QueryUnescape_QueryEscape _ h2]

theorem encodeValues_eq (k : GoString) (buf : GoString) (vs : List GoString) :
    encodeValues (QueryEscape k) buf vs =
      ((vs.map (fun x => (k, x))).map pairText).foldl appendPair buf := by
  induction vs generalizing buf with
  | nil => rfl
  | cons v vs ih =>
    simp only [encodeValues, List.map_cons, List.foldl_cons, ih, appendPair, pairText,
      List.append_assoc]

theorem encodeKeys_eq (m : Values) (buf : GoString) (ks : List GoString) :
    encodeKeys m buf ks = ((encodedPairs m ks).map pairText).foldl appendPair buf := by
  induction ks generalizing buf with
  | nil => rfl
  | cons k ks ih =>
    simp only [encodeKeys, ih, encodeValues_eq, encodedPairs, List.flatMap_cons, List.map_append,
      List.foldl_append]

theorem intercalate_append_singleton (sep : GoString) (l : List GoString) (s : GoString)
    (hl : l ≠ []) : sep.intercalate (l ++ [s]) = sep.intercalate l ++ sep ++ s := by
  induction l with
  | nil => exact absurd rfl hl
  | cons a l ih =>
    cases l with
    | nil => simp [List.intercalate]
    | cons b l =>
      have := ih (by simp)
      simp only [List.intercalate, List.cons_append, List.intersperse_cons_cons, List.flatten_cons,
        List.append_assoc] at this ⊢
      rw [this]

theorem foldl_appendPair (segs done : List GoString) (hd : ∀ s ∈ done, s ≠ [])
    (hs : ∀ s ∈ segs, s ≠ []) :
    segs.foldl appendPair ([0x26].intercalate done) = [0x26].intercalate (done ++ segs) := by
  induction segs generalizing done with
  | nil => simp
  | cons s segs ih =>
    have hstep : appendPair ([0x26].intercalate done) s = [0x26].intercalate (done ++ [s]) := by
      unfold appendPair
      cases done with
      | nil => simp [List.intercalate]
      | cons a done =>
        have hne : 0 < ([0x26].intercalate (a :: done)).length := by
          have ha : a ≠ [] := hd a (List.mem_cons_self _ _)
          cases done with
          | nil => simpa [List.intercalate, List.length_pos] using ha
          | cons b done =>
            simp only [List.intercalate, List.intersperse_cons_cons, List.flatten_cons,
              List.length_append]
            have := List.length_pos.2 ha
            omega
        rw [if_pos hne, intercalate_append_singleton _ _ _ (by simp)]
    rw [List.foldl_cons, hstep, ih (done ++ [s])]
    · simp
    · intro x hx
      rcases List.mem_append.1 hx with h | h
      · exact hd x h
      · simp only [List.mem_singleton] at h
        rw [h]; exact hs s (List.mem_cons_self _ _)
    · exact fun x hx => hs x (List.mem_cons_of_mem _ hx)

theorem pairText_ne_nil (p : GoString × GoString) : pairText p ≠ [] := by
  unfold pairText; simp

theorem Encode_eq (m : Values) :
    m.Encode = [0x26].intercalate
      ((encodedPairs m (m.keys.insertionSort (fun a b => strLe a b = true))).map pairText) := by
  unfold Values.Encode
  rw [encodeKeys_eq]
  have := foldl_appendPair
    ((encodedPairs m (m.keys.insertionSort (fun a b => strLe a b = true))).map pairText) []
    (by simp) (by
      intro s hs
      obtain ⟨p, _, hp⟩ := List.mem_map.1 hs
      rw [← hp]; exact pairText_ne_nil p)
  simpa [List.intercalate] using this

theorem parseQuery_intercalate (segs : List GoString) (h : ∀ s ∈ segs, (0x26 : Nat) ∉ s) :
    parseQuery ([0x26].intercalate segs) = segs.foldl addPiece [] := by
  unfold parseQuery
  cases segs with
  | nil => rfl
  | cons s segs => rw [List.splitOn_intercalate (s :: segs) (0x26 : Nat) h (by simp)]

theorem foldl_addPiece_pairText (pairs : List (GoString × GoString)) (m : Values)
    (h : ∀ p ∈ pairs, isBytes p.1 ∧ isBytes p.2) :
    (pairs.map pairText).foldl addPiece m = pairs.foldl (fun m p => m.add p.1 p.2) m := by
  induction pairs generalizing m with
  | nil => rfl
  | cons p pairs ih =>
    have hp := h p (List.mem_cons_self _ _)
    simp only [List.map_cons, List.foldl_cons, addPiece_pairText m p hp.1 hp.2]
    exact ih _ (fun q hq => h q (List.mem_cons_of_mem _ hq))

theorem pairText_no_amp (p : GoString × GoString) : (0x26 : Nat) ∉ pairText p := by
  unfold pairText
  simp only [List.append_assoc, List.mem_append, List.mem_singleton, not_or]
  exact ⟨fun h => (QueryEscape_not_sep _ _ h).1 rfl, by decide,
    fun h => (QueryEscape_not_sep _ _ h).1 rfl⟩

theorem parseQuery_Encode (m : Values)
    (h : ∀ p ∈ encodedPairs m (m.keys.insertionSort (fun a b => strLe a b = true)),
      isBytes p.1 ∧ isBytes p.2) :
    parseQuery m.Encode =
      (encodedPairs m (m.keys.insertionSort (fun a b => strLe a b = true))).foldl
        (fun (m : Values) p => m.add p.1 p.2) [] := by
  rw [Encode_eq, parseQuery_intercalate, foldl_addPiece_pairText _ _ h]
  intro s hs
  obtain ⟨p, _, hp⟩ := List.mem_map.1 hs
  rw [← hp]; exact pairText_no_amp p

theorem Values.get_add (m : Values) (k v k' : GoString) :
    (m.add k v).get k' = if k' = k then m.get k' ++ [v] else m.get k' := by
  induction m with
  | nil =>
    simp only [Values.add, Values.get]
    split_ifs with h1 h2 h2
    · rfl
    · exact absurd h1.symm h2
    · exact absurd h2.symm h1
    · rfl
  | cons e m ih =>
    obtain ⟨a, vs⟩ := e
    simp only [Values.add]
    by_cases h : a = k
    · subst h
      simp only [if_true, Values.get]
      by_cases h2 : a = k'
      · subst h2; simp
      · have h3 : ¬ k' = a := fun e => h2 e.symm
        simp only [h2, h3, if_false]
    · simp only [h, if_false, Values.get, ih]
      by_cases h2 : a = k'
      · subst h2
        have h3 : ¬ a = k := h
        simp only [if_true, h3, if_false]
      · simp only [h2, if_false]

theorem Values.get_Set (m : Values) (k v k' : GoString) :
    (m.Set k v).get k' = if k' = k then [v] else m.get k' := by
  induction m with
  | nil =>
    simp only [Values.Set, Values.get]
    split_ifs with h1 h2 h2
    · rfl
    · exact absurd h1.symm h2
    · exact absurd h2.symm h1
    · rfl
  | cons e m ih =>
    obtain ⟨a, vs⟩ := e
    simp only [Values.Set]
    by_cases h : a = k
    · subst h
      simp only [if_true, Values.get]
      by_cases h2 : a = k'
      · subst h2; simp
      · have h3 : ¬ k' = a := fun e => h2 e.symm
        simp only [h2, h3, if_false]
    · simp only [h, if_false, Values.get, ih]
      by_cases h2 : a = k'
      · subst h2
        have h3 : ¬ a = k := h
        simp only [if_true, h3, if_false]
      · simp only [h2, if_false]

theorem Values.get_foldl_add (pairs : List (GoString × GoString)) (m : Values) (k : GoString) :
    (pairs.foldl (fun (m : Values) p => m.add p.1 p.2) m).get k =
      m.get k ++ (pairs.filter (fun p => decide (p.1 = k))).map (fun p => p.2) := by
  induction pairs generalizing m with
  | nil => simp
  | cons p pairs ih =>
    obtain ⟨a, b⟩ := p
    rw [List.foldl_cons, ih, Values.get_add, List.filter_cons]
    by_cases h : a = k
    · subst h
      simp
    · have h' : ¬ k = a := fun e => h e.symm
      simp [h, h']

theorem Values.get_of_not_mem_keys (m : Values) (k : GoString) (h : k ∉ m.keys) :
    m.get k = [] := by
  induction m with
  | nil => rfl
  | cons e m ih =>
    obtain ⟨a, vs⟩ := e
    simp only [Values.keys, List.map_cons, List.mem_cons, not_or] at h
    have h1 : ¬ a = k := fun e => h.1 e.symm
    simp only [Values.get, h1, if_false]
    exact ih h.2

theorem filter_encodedPairs (m : Values) (ks : List GoString) (hn : ks.Nodup) (k : GoString) :
    ((encodedPairs m ks).filter (fun p => decide (p.1 = k))).map (fun p => p.2) =
      if k ∈ ks then m.get k else [] := by
  induction ks with
  | nil => rfl
  | cons a ks ih =>
    have hn' := List.nodup_cons.1 hn
    simp only [encodedPairs, List.flatMap_cons, List.filter_append, List.map_append] at ih ⊢
    rw [ih hn'.2]
    by_cases h : a = k
    · subst h
      have e1 : List.filter (fun p => decide (p.1 = a)) (List.map (fun x => (a, x)) (m.get a))
          = List.map (fun x => (a, x)) (m.get a) := by
        rw [List.filter_eq_self]
        intro p hp
        obtain ⟨x, _, hx⟩ := List.mem_map.1 hp
        simp [← hx]
      rw [e1]
      simp [hn'.1]
    · have e1 : List.filter (fun p => decide (p.1 = k)) (List.map (fun x => (a, x)) (m.get a))
          = [] := by
        rw [List.filter_eq_nil_iff]
        intro p hp
        obtain ⟨x, _, hx⟩ := List.mem_map.1 hp
        simp [← hx, h]
      have h' : ¬ k = a := fun e => h e.symm
      rw [e1]
      simp [h']

theorem Values.mem_get (m : Values) (k x : GoString) (h : x ∈ m.get k) :
    ∃ e ∈ m, e.1 = k ∧ x ∈ e.2 := by
  induction m with
  | nil => simp [Values.get] at h
  | cons e m ih =>
    obtain ⟨a, vs⟩ := e
    simp only [Values.get] at h
    by_cases h1 : a = k
    · rw [if_pos h1] at h
      exact ⟨(a, vs), List.mem_cons_self _ _, h1, h⟩
    · rw [if_neg h1] at h
      obtain ⟨e, he, h2⟩ := ih h
      exact ⟨e, List.mem_cons_of_mem _ he, h2⟩

theorem Values.get_parseQuery_Encode (m : Values) (hn : m.keys.Nodup) (hb : m.isBytes)
    (k : GoString) : (parseQuery m.Encode).get k = m.get k := by
  have hperm := List.perm_insertionSort (fun a b => strLe a b = true) m.keys
  rw [parseQuery_Encode, Values.get_foldl_add, filter_encodedPairs _ _ (hperm.nodup_iff.2 hn)]
  · simp only [Values.get, List.nil_append]
    split_ifs with h
    · rfl
    · exact (Values.get_of_not_mem_keys m k (fun hk => h (hperm.mem_iff.2 hk))).symm
  · intro p hp
    unfold encodedPairs at hp
    obtain ⟨a, _, ha⟩ := List.mem_flatMap.1 hp
    obtain ⟨x, hx, hpx⟩ := List.mem_map.1 ha
    obtain ⟨e, he, h1, h2⟩ := Values.mem_get m a x hx
    have := hb e he
    rw [← hpx]
    exact ⟨h1 ▸ this.1, this.2 x h2⟩

theorem Values.keys_add (m : Values) (k v : GoString) :
    (m.add k v).keys = if k ∈ m.keys then m.keys else m.keys ++ [k] := by
  induction m with
  | nil => simp [Values.add, Values.keys]
  | cons e m ih =>
    obtain ⟨a, vs⟩ := e
    simp only [Values.keys] at ih
    by_cases h : a = k
    · subst h
      simp [Values.add, Values.keys]
    · have h' : ¬ k = a := fun e => h e.symm
      simp only [Values.add, h, if_false, Values.keys, List.map_cons, List.mem_cons, h', false_or,
        ih]
      split_ifs <;> simp

theorem Values.keys_Set (m : Values) (k v : GoString) :
    (m.Set k v).keys = if k ∈ m.keys then m.keys else m.keys ++ [k] := by
  induction m with
  | nil => simp [Values.Set, Values.keys]
  | cons e m ih =>
    obtain ⟨a, vs⟩ := e
    simp only [Values.keys] at ih
    by_cases h : a = k
    · subst h
      simp [Values.Set, Values.keys]
    · have h' : ¬ k = a := fun e => h e.symm
      simp only [Values.Set, h, if_false, Values.keys, List.map_cons, List.mem_cons, h', false_or,
        ih]
      split_ifs <;> simp

theorem nodup_of_keys_eq (ks ks' : List GoString) (k : GoString)
    (h : ks' = if k ∈ ks then ks else ks ++ [k]) (hn : ks.Nodup) : ks'.Nodup := by
  rw [h]
  split_ifs with hk
  · exact hn
  · exact List.Nodup.append hn (List.nodup_singleton k) (by simpa using hk)

theorem Values.nodup_add (m : Values) (k v : GoString) (hn : m.keys.Nodup) :
    (m.add k v).keys.Nodup :=
  nodup_of_keys_eq _ _ k (Values.keys_add m k v) hn

theorem Values.nodup_Set (m : Values) (k v : GoString) (hn : m.keys.Nodup) :
    (m.Set k v).keys.Nodup :=
  nodup_of_keys_eq _ _ k (Values.keys_Set m k v) hn

theorem Values.isBytes_add (m : Values) (k v : GoString) (hm : m.isBytes)
    (hk : Stratus.isBytes k) (hv : Stratus.isBytes v) : (m.add k v).isBytes := by
  induction m with
  | nil =>
    intro e he
    simp only [Values.add, List.mem_singleton] at he
    subst he
    exact ⟨hk, fun x hx => by simp only [List.mem_singleton] at hx; rw [hx]; exact hv⟩
  | cons e m ih =>
    obtain ⟨a, vs⟩ := e
    have h0 := hm (a, vs) (List.mem_cons_self _ _)
    have hm' : Values.isBytes m := fun e he => hm e (List.mem_cons_of_mem _ he)
    intro e he
    simp only [Values.add] at he
    split_ifs at he with h
    · rcases List.mem_cons.1 he with he | he
      · subst he
        refine ⟨h0.1, fun x hx => ?_⟩
        rcases List.mem_append.1 hx with hx | hx
        · exact h0.2 x hx
        · simp only [List.mem_singleton] at hx; rw [hx]; exact hv
      · exact hm' e he
    · rcases List.mem_cons.1 he with he | he
      · subst he; exact h0
      · exact ih hm' e he

theorem Values.isBytes_Set (m : Values) (k v : GoString) (hm : m.isBytes)
    (hk : Stratus.isBytes k) (hv : Stratus.isBytes v) : (m.Set k v).isBytes := by
  induction m with
  | nil =>
    intro e he
    simp only [Values.Set, List.mem_singleton] at he
    subst he
    exact ⟨hk, fun x hx => by simp only [List.mem_singleton] at hx; rw [hx]; exact hv⟩
  | cons e m ih =>
    obtain ⟨a, vs⟩ := e
    have h0 := hm (a, vs) (List.mem_cons_self _ _)
    have hm' : Values.isBytes m := fun e he => hm e (List.mem_cons_of_mem _ he)
    intro e he
    simp only [Values.Set] at he
    split_ifs at he with h
    · rcases List.mem_cons.1 he with he | he
      · subst he
        exact ⟨h0.1, fun x hx => by simp only [List.mem_singleton] at hx; rw [hx]; exact hv⟩
      · exact hm' e he
    · rcases List.mem_cons.1 he with he | he
      · subst he; exact h0
      · exact ih hm' e he

theorem hexVal_lt (c x : Nat) (h : hexVal c = some x) : x < 16 := by
  unfold hexVal at h
  split_ifs at h <;> simp only [Option.some.injEq, reduceCtorEq] at h <;> omega

theorem QueryUnescape_isBytes (s t : GoString) (hs : isBytes s) (h : QueryUnescape s = some t) :
    isBytes t := by
  obtain ⟨n, hn⟩ : ∃ n, s.length = n := ⟨_, rfl⟩
  induction n using Nat.strong_induction_on generalizing s t with
  | _ n ih =>
    cases s with
    | nil =>
      simp only [QueryUnescape, Option.some.injEq] at h
      subst h
      intro b hb
      simp at hb
    | cons c rest =>
      have hrest : isBytes rest := fun b hb => hs b (List.mem_cons_of_mem _ hb)
      by_cases hc : c = 0x25
      · subst hc
        rw [QueryUnescape.eq_def] at h
        simp only [if_true] at h
        cases rest with
        | nil => simp at h
        | cons a rest1 =>
          cases rest1 with
          | nil => simp at h
          | cons b rest2 =>
            simp only at h
            cases ha : hexVal a with
            | none => rw [ha] at h; simp at h
            | some x =>
              cases hb : hexVal b with
              | none => rw [ha, hb] at h; simp at h
              | some y =>
                rw [ha, hb] at h
                simp only [Option.map_eq_some'] at h
                obtain ⟨t', ht', e⟩ := h
                have h2 : isBytes rest2 := fun z hz =>
                  hrest z (List.mem_cons_of_mem _ (List.mem_cons_of_mem _ hz))
                have := ih rest2.length (by simp only [List.length_cons] at hn; omega) rest2 t'
                  h2 ht' rfl
                have hx := hexVal_lt a x ha
                have hy := hexVal_lt b y hb
                rw [← e]
                intro z hz
                rcases List.mem_cons.1 hz with hz | hz
                · rw [hz]; omega
                · exact this z hz
      · rw [QueryUnescape_cons c rest hc] at h
        simp only [Option.map_eq_some'] at h
        obtain ⟨t', ht', e⟩ := h
        have := ih rest.length (by simp only [List.length_cons] at hn; omega) rest t' hrest ht' rfl
        have hcb : c < 256 := hs c (List.mem_cons_self _ _)
        rw [← e]
        intro z hz
        rcases List.mem_cons.1 hz with hz | hz
        · rw [hz]; split_ifs <;> omega
        · exact this z hz

theorem isBytes_cut (sep : Nat) (s : GoString) (hs : isBytes s) :
    isBytes (cut sep s).1 ∧ isBytes (cut sep s).2 := by
  unfold cut
  constructor
  · exact fun b hb => hs b ((List.takeWhile_sublist _).subset hb)
  · exact fun b hb => hs b ((List.dropWhile_sublist _).subset (List.mem_of_mem_tail hb))

theorem addPiece_invariant (m : Values) (piece : GoString) (hp : isBytes piece)
    (hn : m.keys.Nodup) (hm : m.isBytes) :
    (addPiece m piece).keys.Nodup ∧ (addPiece m piece).isBytes := by
  unfold addPiece
  split_ifs
  · exact ⟨hn, hm⟩
  · exact ⟨hn, hm⟩
  · have hc := isBytes_cut 0x3D piece hp
    cases h1 : QueryUnescape (cut 0x3D piece).1 with
    | none => exact ⟨hn, hm⟩
    | some key =>
      cases h2 : QueryUnescape (cut 0x3D piece).2 with
      | none => exact ⟨hn, hm⟩
      | some value =>
        exact ⟨Values.nodup_add m key value hn,
          Values.isBytes_add m key value hm (QueryUnescape_isBytes _ _ hc.1 h1)
            (QueryUnescape_isBytes _ _ hc.2 h2)⟩

theorem mem_intersperse_of_mem (sep l : GoString) (ls : List GoString) (h : l ∈ ls) :
    l ∈ ls.intersperse sep := by
  induction ls with
  | nil => simp at h
  | cons a ls ih =>
    cases ls with
    | nil => simpa using h
    | cons b ls =>
      rw [List.intersperse_cons₂]
      rcases List.mem_cons.1 h with h | h
      · rw [h]; exact List.mem_cons_self _ _
      · exact List.mem_cons_of_mem _ (List.mem_cons_of_mem _ (ih h))

theorem mem_of_mem_splitOn (q piece : GoString) (b : Nat) (hp : piece ∈ q.splitOn 0x26)
    (hb : b ∈ piece) : b ∈ q := by
  have h := List.intercalate_splitOn q (0x26 : Nat)
  rw [← h]
  unfold List.intercalate
  rw [List.mem_flatten]
  exact ⟨piece, mem_intersperse_of_mem _ _ _ hp, hb⟩

theorem parseQuery_invariant (q : GoString) (hq : isBytes q) :
    (parseQuery q).keys.Nodup ∧ (parseQuery q).isBytes := by
  unfold parseQuery
  have hpieces : ∀ piece ∈ q.splitOn 0x26, isBytes piece :=
    fun piece hp b hb => hq b (mem_of_mem_splitOn q piece b hp hb)
  have key : ∀ (pieces : List GoString) (m : Values), (∀ piece ∈ pieces, isBytes piece) →
      m.keys.Nodup → m.isBytes →
      (pieces.foldl addPiece m).keys.Nodup ∧ (pieces.foldl addPiece m).isBytes := by
    intro pieces
    induction pieces with
    | nil => intro m _ hn hm; exact ⟨hn, hm⟩
    | cons p pieces ih =>
      intro m hp hn hm
      have := addPiece_invariant m p (hp p (List.mem_cons_self _ _)) hn hm
      exact ih _ (fun x hx => hp x (List.mem_cons_of_mem _ hx)) this.1 this.2
  exact key _ [] hpieces (by simp [Values.keys]) (fun e he => by simp at he)

/-! ## Claims about encodeURL -/

theorem encodeURL_eq (Parse : GoString → Except Error URL) (base origin destination : GoString)
    (u : URL) (hp : Parse base = .ok u) :
    encodeURL Parse base origin destination =
      .ok { u with RawQuery :=
        (((u.Query.Set (lit "origin") origin).Set (lit "destination") destination).Set
          (lit "sensor") (lit "false")).Encode } := by
  unfold encodeURL
  rw [hp]

theorem parseQuery_Encode_three (origin destination : GoString) (ho : isBytes origin)
    (hd : isBytes destination) :
    parseQuery (Values.Encode
      [(lit "origin", [origin]), (lit "destination", [destination]),
        (lit "sensor", [lit "false"])]) =
      [(lit "destination", [destination]), (lit "origin", [origin]),
        (lit "sensor", [lit "false"])] := by
  have hs : List.insertionSort (fun a b => strLe a b = true)
      (Values.keys [(lit "origin", [origin]), (lit "destination", [destination]),
        (lit "sensor", [lit "false"])]) = [lit "destination", lit "origin", lit "sensor"] := by
    have : List.insertionSort (fun a b => strLe a b = true)
        [lit "origin", lit "destination", lit "sensor"] =
        [lit "destination", lit "origin", lit "sensor"] := by decide
    exact this
  have n1 : ¬ lit "origin" = lit "destination" := by decide
  have n2 : ¬ lit "origin" = lit "sensor" := by decide
  have n3 : ¬ lit "destination" = lit "sensor" := by decide
  have n4 : ¬ lit "destination" = lit "origin" := by decide
  have hpairs : encodedPairs [(lit "origin", [origin]), (lit "destination", [destination]),
      (lit "sensor", [lit "false"])] [lit "destination", lit "origin", lit "sensor"] =
      [(lit "destination", destination), (lit "origin", origin),
        (lit "sensor", lit "false")] := by
    simp only [encodedPairs, List.flatMap_cons, List.flatMap_nil, Values.get, n1, n2, n3,
      if_true, if_false, List.map_cons, List.map_nil, List.append_nil, List.singleton_append]
  rw [parseQuery_Encode, hs, hpairs]
  · simp only [List.foldl_cons, List.foldl_nil, Values.add, n2, n3, n4, if_false]
  · rw [hs, hpairs]
    intro p hp
    simp only [List.mem_cons, List.mem_singleton, List.not_mem_nil, or_false] at hp
    rcases hp with hp | hp | hp <;> subst hp
    · exact ⟨(by decide : isBytes (lit "destination")), hd⟩
    · exact ⟨(by decide : isBytes (lit "origin")), ho⟩
    · exact ⟨(by decide : isBytes (lit "sensor")), (by decide : isBytes (lit "false"))⟩

/-- Claim C5, refuted as stated: for the base `http://h/p?a=b`, which url.Parse reads as
scheme `http`, host `h`, path `/p` and raw query `a=b`, the query of the URL that encodeURL
returns holds four parameters, `a=b` from the base besides the three of the claim. -/
theorem encodeURL_keeps_base_query :
    (encodeURL
        (fun _ => .ok { Scheme := lit "http", Host := lit "h", Path := lit "/p",
                        RawQuery := lit "a=b" })
        (lit "http://h/p?a=b") (lit "A") (lit "B")).map (fun u => (u.RawQuery, u.Query)) =
      .ok (lit "a=b&destination=B&origin=A&sensor=false",
        [(lit "a", [lit "b"]), (lit "destination", [lit "B"]), (lit "origin", [lit "A"]),
          (lit "sensor", [lit "false"])]) := by
  decide

/-- Claim C5, amended: for every base that url.Parse reads as a URL `u` and for every origin
and destination (any strings of bytes), encodeURL succeeds, and the percent-decoded query of
the URL it returns holds `origin`, `destination` and `sensor` with the single values origin, destination and "false",
and for every other name the values it has in the query of the base; when the base has no
query parameters of its own (as DIR_BASE_URL), these three are the only parameters. -/
theorem encodeURL_query (Parse : GoString → Except Error URL)
    (base origin destination : GoString) (u : URL) (hp : Parse base = .ok u)
    (hq : isBytes u.RawQuery) (ho : isBytes origin) (hd : isBytes destination) :
    ∃ u', encodeURL Parse base origin destination = .ok u' ∧
      (∀ k, u'.Query.get k =
        if k = lit "origin" then [origin]
        else if k = lit "destination" then [destination]
        else if k = lit "sensor" then [lit "false"]
        else u.Query.get k) ∧
      (u.Query = [] →
        u'.Query = [(lit "destination", [destination]), (lit "origin", [origin]),
          (lit "sensor", [lit "false"])]) := by
  refine ⟨_, encodeURL_eq Parse base origin destination u hp, ?_, ?_⟩
  · intro k
    have hinv := parseQuery_invariant u.RawQuery hq
    have hn := Values.nodup_Set _ (lit "sensor") (lit "false")
      (Values.nodup_Set _ (lit "destination") destination
        (Values.nodup_Set _ (lit "origin") origin hinv.1))
    have hb := Values.isBytes_Set _ (lit "sensor") (lit "false")
      (Values.isBytes_Set _ (lit "destination") destination
        (Values.isBytes_Set _ (lit "origin") origin hinv.2 (by decide) ho) (by decide) hd)
      (by decide) (by decide)
    have n1 : ¬ lit "origin" = lit "destination" := by decide
    have n2 : ¬ lit "origin" = lit "sensor" := by decide
    have n3 : ¬ lit "destination" = lit "sensor" := by decide
    simp only [URL.Query]
    rw [Values.get_parseQuery_Encode _ hn hb, Values.get_Set, Values.get_Set, Values.get_Set]
    by_cases h1 : k = lit "origin"
    · subst h1; simp only [n1, n2, if_true, if_false]
    · by_cases h2 : k = lit "destination"
      · subst h2; simp only [h1, n3, if_true, if_false]
      · simp only [h1, h2, if_false]
  · intro h0
    simp only [URL.Query] at h0 ⊢
    have n1 : ¬ lit "origin" = lit "destination" := by decide
    have n2 : ¬ lit "origin" = lit "sensor" := by decide
    have n3 : ¬ lit "destination" = lit "sensor" := by decide
    rw [h0]
    simp only [Values.Set, n1, n2, n3, if_false]
    exact parseQuery_Encode_three origin destination ho hd

/-- Witness for the amended claim C5: DIR_BASE_URL with an origin holding a space and a
destination holding accented letters, `&`, `=` and CJK characters. -/
theorem encodeURL_query_witness :
    isBytes dirBaseURL.RawQuery ∧ isBytes (lit "A b") ∧ isBytes (lit "é&=東") ∧
    encodeURL (fun _ => .ok dirBaseURL) DIR_BASE_URL (lit "A b") (lit "é&=東") =
      .ok { dirBaseURL with
        RawQuery := lit "destination=%C3%A9%26%3D%E6%9D%B1&origin=A+b&sensor=false" } ∧
    ∃ u', encodeURL (fun _ => .ok dirBaseURL) DIR_BASE_URL (lit "A b") (lit "é&=東") = .ok u' ∧
      u'.Query = [(lit "destination", [lit "é&=東"]), (lit "origin", [lit "A b"]),
        (lit "sensor", [lit "false"])] :=
  ⟨by decide, by decide, by decide, by decide,
    (encodeURL_query (fun _ => .ok dirBaseURL) DIR_BASE_URL (lit "A b") (lit "é&=東") dirBaseURL
      rfl (by decide) (by decide) (by decide)).imp (fun _ h => ⟨h.1, h.2.2 (by decide)⟩)⟩

end Stratus
